import Mathlib

/-!
# Threshold signatures: BLS share recovery and Schnorr aggregation

A shallow embedding of `bls_threshold.go` and `schnorr_threshold.go`.

* Byte strings are lists of `Byte = Fin 256`.
* `*big.Int` values are `Int`; `Mod` is the Euclidean modulus of `math/big`.
* A Go call that can panic returns `Option` (`none` is the panic); `recoverSig`, which can
  return a signature, return an error or panic, returns an `Outcome`.
* Curve points, pairing groups and hash functions come from libraries outside the repository;
  they enter as type parameters with the usual algebraic structure and as function parameters.
-/

namespace ThresholdSig

/-- One octet of a Go `[]byte`. -/
abbrev Byte := Fin 256

/-! ## Share codec (`bls_threshold.go`) -/

/-- The two errors `binary.Read` can return on a short reader: `io.EOF` when no byte was
read, `io.ErrUnexpectedEOF` when only part of the value was read. -/
inductive ReadError where
  | EOF
  | ErrUnexpectedEOF
  deriving DecidableEq, Repr

/-- `SigShare.Index`: reads a big-endian `uint16` from the start of the share; on a read
error the pair `(-1, err)`, else `(int(index), nil)`. -/
def SigShare.Index (s : List Byte) : Int × Option ReadError :=
  match s with
  | [] => (-1, some ReadError.EOF)
  | [_] => (-1, some ReadError.ErrUnexpectedEOF)
  | b0 :: b1 :: _ => (((256 * b0.val + b1.val : Nat) : Int), none)

/-- `SigShare.Value`: the slice expression `[]byte(*s)[2:]`, which panics (`none`) when the
share has fewer than 2 bytes. -/
def SigShare.Value (s : List Byte) : Option (List Byte) :=
  if 2 ≤ s.length then some (s.drop 2) else none

/-- Go conversion `uint16(i)` of an `int`: truncation to 16 bits. -/
def uint16 (i : Int) : Nat := (i % 65536).toNat

/-- `binary.Write(buf, binary.BigEndian, v)` for a `uint16`: high octet, then low octet. -/
def putUint16 (v : Nat) : List Byte :=
  [⟨v / 256 % 256, Nat.mod_lt _ (by decide)⟩, ⟨v % 256, Nat.mod_lt _ (by decide)⟩]

/-- The way `main` builds a signature share: `binary.Write` of `uint16(x.I)` followed by
`binary.Write` of the signature bytes, into one buffer. -/
def encodeShare (i : Int) (s : List Byte) : List Byte :=
  putUint16 (uint16 i) ++ s

/-! ## Big integers and byte strings (`math/big`) -/

/-- `new(big.Int).SetBytes(bs)`: the unsigned big-endian value of a byte string. -/
def SetBytes (bs : List Byte) : Nat :=
  bs.foldl (fun acc b => acc * 256 + b.val) 0

/-- `(*big.Int).Bytes()` of a non-negative value: its minimal big-endian byte string. -/
def Bytes (n : Nat) : List Byte :=
  ((Nat.digits 256 n).map (fun d => (⟨d % 256, Nat.mod_lt _ (by decide)⟩ : Byte))).reverse

/-- The big-endian encoding of `v` in exactly `w` bytes (the low `w` bytes of `v`). -/
def bigEndian : Nat → Nat → List Byte
  | 0, _ => []
  | w + 1, v => bigEndian w (v / 256) ++ [(⟨v % 256, Nat.mod_lt _ (by decide)⟩ : Byte)]

/-- Modelled from the spec: `schnorr.IntToByte` of the tokucore library, which is not under
`src/`: the 32-byte big-endian encoding of a big integer (of its magnitude, which is what
`big.Int.Bytes` yields). A value of more than 32 bytes does not fit the fixed buffer and the
call panics (`none`). -/
def IntToByte (i : Int) : Option (List Byte) :=
  if i.natAbs < 2 ^ 256 then some (bigEndian 32 i.natAbs) else none

/-- Go builtin `copy(dst, src)`: overwrites the first `min(len dst, len src)` bytes of `dst`. -/
def copyInto (dst src : List Byte) : List Byte :=
  src.take dst.length ++ dst.drop src.length

/-! ## Schnorr aggregation (`schnorr_threshold.go`) -/

/-- The curve all keys live on (`secp256k1.SECP256K1()`), with the library functions that take
it as an argument. Points are the elements of an additive commutative group `Pt`; `curve.Add`
is the group addition. -/
structure Curve (Pt : Type) where
  /-- Group order `curve.Params().N`. -/
  N : Int
  /-- Field prime `curve.Params().P`. -/
  P : Int
  /-- Base point: `curve.ScalarBaseMult(k)` is `k` times this point. -/
  G : Pt
  /-- Affine x-coordinate of a point. -/
  X : Pt → Int
  /-- Affine y-coordinate of a point. -/
  Y : Pt → Int
  /-- Symbol `big.Jacobi(y, p)` of the standard library. -/
  Jacobi : Int → Int → Int
  /-- Challenge hash `schnorr.GetE(curve, m, Px, Py, rX)`. -/
  GetE : List Byte → Int → Int → List Byte → Int
  /-- Nonce hash `schnorr.GetK0(hash, d, N)`; `none` is its error. Its value is a hash
  reduced modulo `N`, hence a natural number. -/
  GetK0 : List Byte → List Byte → Int → Option Nat

/-- `ecdsa.PrivateKey` as `PrvKey`: the scalar `D` and the embedded public key point. -/
structure PrvKey (Pt : Type) where
  D : Int
  PublicKey : Pt

/-- `SchnorrParty`; `k0` and `r` are nil pointers until `getScalar` sets them. The `curve`
field is the one shared curve and is passed to the functions instead. -/
structure SchnorrParty (Pt : Type) where
  k0 : Option Int
  N : Int
  prv : PrvKey Pt
  pub : Pt
  hash : List Byte
  r : Option Pt
  sig : List Byte

section Schnorr

variable {Pt : Type} [AddCommGroup Pt]

/-- `curve.ScalarBaseMult(k)`: the base point times the big-endian value of `k`. -/
def ScalarBaseMult (c : Curve Pt) (k : List Byte) : Pt :=
  SetBytes k • c.G

/-- `PrvKeyFromBytes`. -/
def PrvKeyFromBytes (c : Curve Pt) (key : List Byte) : PrvKey Pt :=
  { PublicKey := ScalarBaseMult c key, D := (SetBytes key : Nat) }

/-- `(*PrvKey).PubKey`. -/
def PrvKey.PubKey (p : PrvKey Pt) : Pt := p.PublicKey

/-- `(*PubKey).Add`: `curve.Add` on the two points. -/
def PubKey.Add (p p2 : Pt) : Pt := p + p2

/-- `NewSchnorrParty`. -/
def NewSchnorrParty (c : Curve Pt) (prv : PrvKey Pt) : SchnorrParty Pt :=
  { N := c.N, prv := prv, pub := prv.PubKey, k0 := none, hash := [], r := none, sig := [] }

/-- Modelled from the spec: `schnorr.GetK` of the tokucore library, which is not under `src/`:
the nonce `k0` is kept when the y-coordinate is a quadratic residue (Jacobi symbol 1) and
negated modulo the group order, `N - k0`, when it is not. -/
def GetK (c : Curve Pt) (Ry k0 : Int) : Int :=
  if c.Jacobi Ry c.P = 1 then k0 else c.N - k0

/-- `generateSignature`: the updated party and the returned bytes; `none` when a step panics
(nil `k0`, `IntToByte` of a value wider than 32 bytes, or `Mod` by zero). -/
def generateSignature (c : Curve Pt) (party : SchnorrParty Pt) (shareR sharePub : Pt) :
    Option (SchnorrParty Pt × List Byte) := do
  let k0 ← party.k0
  let m := party.hash
  let N := party.N
  let prv := party.prv
  let rX ← IntToByte (c.X shareR)
  let e := c.GetE m (c.X sharePub) (c.Y sharePub) rX
  let ed := e * prv.D
  let k := GetK c (c.Y shareR) k0
  let s := k + ed
  if N = 0 then none
  else
    let s := s % N
    let sig ← IntToByte s
    some ({ party with sig := sig }, sig)

/-- The loop of `pickParties` from index `i` on; `allParties[i]` out of range panics. -/
def pickPartiesFrom {α : Type} (allParties : List α) : Nat → List Bool → List α → Option (List α)
  | _, [], parties => some parties
  | i, pick :: rest, parties =>
    if pick then
      match allParties[i]? with
      | none => none
      | some p => pickPartiesFrom allParties (i + 1) rest (parties ++ [p])
    else pickPartiesFrom allParties (i + 1) rest parties

/-- `pickParties`. -/
def pickParties {α : Type} (picks : List Bool) (allParties : List α) : Option (List α) :=
  pickPartiesFrom allParties 0 picks []

/-- The selection as the specification words it: the parties whose mask entry is true, in
their original order. -/
def selectedParties {α : Type} (picks : List Bool) (allParties : List α) : List α :=
  ((picks.zip allParties).filter (fun x => x.1)).map (fun x => x.2)

/-- `getScalar`: derives `k0`, stores it with the hash and the nonce point in the party and
returns the nonce point; `none` when `IntToByte` panics or `GetK0` fails (`panic("k0 panic")`). -/
def getScalar (c : Curve Pt) (party : SchnorrParty Pt) (hash : List Byte) :
    Option (SchnorrParty Pt × Pt) := do
  let prv := party.prv
  let d ← IntToByte prv.D
  let k0 ← c.GetK0 hash d party.N
  let r := ScalarBaseMult c (Bytes k0)
  some ({ party with k0 := some (k0 : Int), hash := hash, r := some r }, r)

/-- The nonce `getScalar` derives for a party: `GetK0(hash, IntToByte(prv.D), party.N)`. -/
def nonceOf (c : Curve Pt) (hash : List Byte) (party : SchnorrParty Pt) : Option Nat := do
  let d ← IntToByte party.prv.D
  c.GetK0 hash d party.N

/-- Phase 1 of `main`: `pickedParties[0].pub`, then `Add` of every further public key. -/
def aggregatePub (pickedParties : List (SchnorrParty Pt)) : Option Pt :=
  match pickedParties with
  | [] => none
  | p0 :: rest => some (rest.foldl (fun sharePub p => PubKey.Add sharePub p.pub) p0.pub)

/-- Phase 2 of `main`: `getScalar` on every picked party in turn. -/
def allScalars (c : Curve Pt) (hash : List Byte) :
    List (SchnorrParty Pt) → Option (List (SchnorrParty Pt) × List Pt)
  | [] => some ([], [])
  | p :: rest => do
    let (p1, r) ← getScalar c p hash
    let (ps, rs) ← allScalars c hash rest
    some (p1 :: ps, r :: rs)

/-- Phase 3 of `main`: `allScalarR[0]`, then `Add` of every further nonce point. -/
def aggregateR (allScalarR : List Pt) : Option Pt :=
  match allScalarR with
  | [] => none
  | r0 :: rest => some (rest.foldl (fun shareScalarR r => shareScalarR + r) r0)

/-- Phase 4 of `main`: `generateSignature` on every picked party in turn. -/
def signAll (c : Curve Pt) (shareR sharePub : Pt) :
    List (SchnorrParty Pt) → Option (List (SchnorrParty Pt))
  | [] => some []
  | p :: rest => do
    let (p1, _) ← generateSignature c p shareR sharePub
    let ps ← signAll c shareR sharePub rest
    some (p1 :: ps)

/-- Phase 5 loop of `main`: for each party, add its `sig` as an integer to `aggs`, then reduce
modulo the party's `N`; `Mod` by zero panics. -/
def aggregateSig : List (SchnorrParty Pt) → Int → Option Int
  | [], aggs => some aggs
  | party :: rest, aggs =>
    let s : Int := (SetBytes party.sig : Nat)
    let aggs := aggs + s
    if party.N = 0 then none else aggregateSig rest (aggs % party.N)

/-- End of phase 5: the 64-byte `sigFinal` with `IntToByte(shareScalarR.X)` copied over its
first half and `IntToByte(aggs)` over its second half. -/
def sigFinal (c : Curve Pt) (shareScalarR : Pt) (aggs : Int) : Option (List Byte) := do
  let rX ← IntToByte (c.X shareScalarR)
  let sB ← IntToByte aggs
  let zeros : List Byte := List.replicate 64 0
  some (copyInto (zeros.take 32) rX ++ copyInto (zeros.drop 32) sB)

/-- Phase 6 parsing: `r` from `sigFinal[:32]` and `s` from `sigFinal[32:]`. -/
def parseSig (sig : List Byte) : Int × Int :=
  ((SetBytes (sig.take 32) : Nat), (SetBytes (sig.drop 32) : Nat))

/-- Modelled from the spec: `schnorr.Verify` of the tokucore library, which is not under
`src/`: the standard Schnorr check of the pair `(r, s)` against a public key. It fails when `r`
or `s` is out of range; otherwise the challenge `e` is recomputed from `(r, P, m)` and the point
`s•G - e•P` (the sum of `s•G` and `e•P` with its y-coordinate negated) must not be the point at
infinity, which Go represents by the coordinates `(0, 0)`, must have a y-coordinate that is a
quadratic residue (the canonical sign of the nonce) and must have the x-coordinate `r`.
`none` is the panic of `IntToByte`. -/
def Verify (c : Curve Pt) (pubkey : Pt) (m : List Byte) (r s : Int) : Option Bool :=
  if c.P ≤ r ∨ c.N ≤ s then some false
  else do
    let rX ← IntToByte r
    let e := c.GetE m (c.X pubkey) (c.Y pubkey) rX
    let R := s • c.G - e • pubkey
    if (c.X R = 0 ∧ c.Y R = 0) ∨ c.Jacobi (c.Y R) c.P ≠ 1 ∨ c.X R ≠ r then some false
    else some true

/-- What a run of `main` computes: the parties after phase 4, the aggregates, the final
signature, its parsed halves and the result `pass` of `schnorr.Verify`. -/
structure Session (Pt : Type) where
  pickedParties : List (SchnorrParty Pt)
  sharePub : Pt
  shareScalarR : Pt
  aggs : Int
  sigFinal : List Byte
  r : Int
  s : Int
  pass : Bool

/-- Phases 0 to 6 of `main` on the picked parties and the message hash. -/
def runSession (c : Curve Pt) (pickedParties : List (SchnorrParty Pt)) (hash : List Byte) :
    Option (Session Pt) := do
  let sharePub ← aggregatePub pickedParties
  let (parties2, allScalarR) ← allScalars c hash pickedParties
  let shareScalarR ← aggregateR allScalarR
  let parties4 ← signAll c shareScalarR sharePub parties2
  let aggs ← aggregateSig parties4 0
  let sig ← sigFinal c shareScalarR aggs
  let (r, s) := parseSig sig
  let pass ← Verify c sharePub hash r s
  some { pickedParties := parties4, sharePub := sharePub, shareScalarR := shareScalarR,
         aggs := aggs, sigFinal := sig, r := r, s := s, pass := pass }

end Schnorr

/-! ## Threshold BLS (`bls_threshold.go`) -/

/-- Result of a Go function returning `([]byte, error)`: a value with a nil error, a nil value
with an error, or a run-time panic. -/
inductive Outcome (E α : Type) where
  | ok (a : α)
  | error (e : E)
  | crash

/-- `share.PriShare` and `share.PubShare`: an index `I` and a value `V`. -/
structure Share (V : Type) where
  I : Int
  V : V

/-- `share.PubPoly`: the base point and the commitments to the coefficients. -/
structure PubPoly (G : Type) where
  b : G
  commits : List G

/-- The errors of share recovery named by the specification. -/
inductive ShareError where
  | InsufficientShares
  | DuplicateIndex
  deriving DecidableEq, Repr

/-- The pairing suite and the BLS primitives of the kyber library, consumed as capabilities:
`E` is the type of the errors of `bls.Verify`, `G1` the group of signatures, `G2` the group of
public keys. -/
structure Suite (E G1 G2 : Type) where
  /-- Hash of a message to a point of `G1`. -/
  hashToPoint : List Byte → G1
  /-- `Point.MarshalBinary` on `G1`. -/
  marshalG1 : G1 → List Byte
  /-- `Point.UnmarshalBinary` on `G1`; `none` is its error. -/
  unmarshalG1 : List Byte → Option G1
  /-- The value of a fresh `suite.G1().Point()`. -/
  Point : G1
  /-- `suite.G2().Point().Base()`. -/
  Base : G2
  /-- `bls.Verify(suite, X, msg, sig)`; `none` is the nil error. -/
  Verify : G2 → List Byte → List Byte → Option E

section BLS

variable (F : Type) [Field F] {E G1 G2 G : Type}
variable [AddCommGroup G1] [Module F G1] [AddCommGroup G2] [Module F G2]
variable [AddCommGroup G] [Module F G]

/-- The evaluation point of index `i`: the scalar `1 + i`. -/
def xCoord (i : Int) : F := ((1 + i : Int) : F)

/-- Modelled from the spec: `PriPoly.Eval` of the kyber library, which is not under `src/`:
Horner evaluation of the coefficient list at `x = index + 1`. -/
def PriPoly.Eval (coeffs : List F) (i : Int) : Share F :=
  ⟨i, coeffs.foldr (fun a v => v * xCoord F i + a) 0⟩

/-- Modelled from the spec: `PriPoly.Shares` of the kyber library: the private shares of the
indices `0 .. n-1`. -/
def PriPoly.Shares (coeffs : List F) (n : Nat) : List (Share F) :=
  (List.range n).map (fun i : Nat => PriPoly.Eval F coeffs (i : Int))

/-- Modelled from the spec: `PriPoly.Commit` of the kyber library: each coefficient times the
base point. -/
def PriPoly.Commit (coeffs : List F) (b : G) : PubPoly G :=
  ⟨b, coeffs.map (fun a => a • b)⟩

/-- Modelled from the spec: `PubPoly.Eval` of the kyber library: Horner evaluation of the
commitments at `x = index + 1`. -/
def PubPoly.Eval (p : PubPoly G) (i : Int) : Share G :=
  ⟨i, p.commits.foldr (fun cj v => xCoord F i • v + cj) 0⟩

/-- Modelled from the spec: `PubPoly.Add` of the kyber library: the coefficient-wise point sum,
which requires equal coefficient counts (`none` is its error). -/
def PubPoly.Add (p q : PubPoly G) : Option (PubPoly G) :=
  if p.commits.length = q.commits.length then
    some ⟨p.b, List.zipWith (fun a b => a + b) p.commits q.commits⟩
  else none

/-- Modelled from the spec: the Lagrange coefficient at `x = 0` of the share of index `i` among
the shares of indices `idxs`: the product over the other indices `j` of `(-x_j)/(x_i - x_j)`. -/
def lagrangeCoeff (idxs : List Int) (i : Int) : F :=
  ((idxs.filter (fun j => j ≠ i)).map
    (fun j => (-(xCoord F j)) / (xCoord F i - xCoord F j))).prod

/-- Modelled from the spec: the shares a recovery uses: duplicate indices are an error, fewer
than `t` shares are `InsufficientShares`, else the first `t` shares. -/
def selectShares {V : Type} (shares : List (Share V)) (t : Nat) :
    Except ShareError (List (Share V)) :=
  if ¬ (shares.map (fun s => s.I)).Nodup then Except.error ShareError.DuplicateIndex
  else if shares.length < t then Except.error ShareError.InsufficientShares
  else Except.ok (shares.take t)

/-- Modelled from the spec: `share.RecoverSecret` of the kyber library, which is not under
`src/`: Lagrange interpolation at `x = 0` in the scalar field, `Σ y_i * λ_i`. -/
def RecoverSecret (shares : List (Share F)) (t _n : Nat) : Except ShareError F :=
  match selectShares shares t with
  | Except.error e => Except.error e
  | Except.ok sel =>
    Except.ok (sel.map (fun s => s.V * lagrangeCoeff F (sel.map (fun x => x.I)) s.I)).sum

/-- Modelled from the spec: `share.RecoverCommit` of the kyber library, which is not under
`src/`: Lagrange interpolation in the point domain, `Σ λ_i • Sig_i`, with the coefficients of
`RecoverSecret`. -/
def RecoverCommit (shares : List (Share G)) (t _n : Nat) : Except ShareError G :=
  match selectShares shares t with
  | Except.error e => Except.error e
  | Except.ok sel =>
    Except.ok (sel.map (fun s => lagrangeCoeff F (sel.map (fun x => x.I)) s.I • s.V)).sum

/-- Modelled from the spec: `bls.Sign` of the kyber library: the scalar times the hash-to-point
of the message, marshalled. -/
def Sign (suite : Suite E G1 G2) (x : F) (msg : List Byte) : List Byte :=
  suite.marshalG1 (x • suite.hashToPoint msg)

/-- The loop of `recoverSig`. The error of `Index` is overwritten by the result of
`bls.Verify` without being read; the arguments of `bls.Verify` are evaluated left to right, so
`public.Eval(i)` precedes `s.Value()`, whose slice expression panics on a short share. -/
def recoverSigLoop (suite : Suite E G1 G2) (public : PubPoly G2) (msg : List Byte) :
    List (List Byte) → List (Share G1) → Outcome E (List (Share G1))
  | [], sigShares => Outcome.ok sigShares
  | sig :: rest, sigShares =>
    let i := (SigShare.Index sig).1
    let X := (PubPoly.Eval F public i).V
    match SigShare.Value sig with
    | none => Outcome.crash
    | some value =>
      match suite.Verify X msg value with
      | some err => Outcome.error err
      | none =>
        let v := (suite.unmarshalG1 value).getD suite.Point
        recoverSigLoop suite public msg rest (sigShares ++ [⟨i, v⟩])

/-- The check `recoverSig` runs on one share: `bls.Verify` of the share's value against the
public key share `public.Eval(index).V`. -/
def verifyShare (suite : Suite E G1 G2) (public : PubPoly G2) (msg : List Byte)
    (sig : List Byte) : Option E :=
  suite.Verify (PubPoly.Eval F public (SigShare.Index sig).1).V msg (sig.drop 2)

/-- The public share `recoverSig` appends for a verified share. -/
def toPubShare (suite : Suite E G1 G2) (sig : List Byte) : Share G1 :=
  ⟨(SigShare.Index sig).1, (suite.unmarshalG1 (sig.drop 2)).getD suite.Point⟩

/-- The function `recoverSig` with the recovery step as a parameter. The error of the recovery
is discarded; on an error `commit` is nil and `commit.MarshalBinary()` panics. -/
def recoverSigWith (recover : List (Share G1) → Nat → Nat → Except ShareError G1)
    (suite : Suite E G1 G2) (public : PubPoly G2) (msg : List Byte) (sigs : List (List Byte))
    (t n : Nat) : Outcome E (List Byte) :=
  match recoverSigLoop F suite public msg sigs [] with
  | Outcome.error err => Outcome.error err
  | Outcome.crash => Outcome.crash
  | Outcome.ok sigShares =>
    match recover sigShares t n with
    | Except.error _ => Outcome.crash
    | Except.ok commit => Outcome.ok (suite.marshalG1 commit)

/-- `recoverSig`. -/
def recoverSig (suite : Suite E G1 G2) (public : PubPoly G2) (msg : List Byte)
    (sigs : List (List Byte)) (t n : Nat) : Outcome E (List Byte) :=
  recoverSigWith F (RecoverCommit F) suite public msg sigs t n

/-- The inner loop of `main` building one aggregated private key: `acc += priShares[j][i].V`
for the indices `j` in turn; an index out of range panics. -/
def dkgAcc (priShares : List (List (Share F))) (i : Nat) : List Nat → F → Option F
  | [], acc => some acc
  | j :: js, acc =>
    match priShares[j]? with
    | none => none
    | some row =>
      match row[i]? with
      | none => none
      | some sh => dkgAcc priShares i js (acc + sh.V)

/-- The outer loop of `main` building `dkgShares` for the indices `i` in turn. -/
def dkgSharesFrom (priShares : List (List (Share F))) (n : Nat) :
    List Nat → Option (List (Share F))
  | [] => some []
  | i :: is =>
    match dkgAcc F priShares i (List.range n) 0 with
    | none => none
    | some acc =>
      match dkgSharesFrom priShares n is with
      | none => none
      | some rest => some (⟨(i : Int), acc⟩ :: rest)

/-- `dkgShares` of `main`: for `i < n`, the share of index `i` whose value is the sum over
`j < n` of `priShares[j][i].V`. -/
def dkgShares (priShares : List (List (Share F))) (n : Nat) : Option (List (Share F)) :=
  dkgSharesFrom F priShares n (List.range n)

/-- `sigShares` of `main`: each aggregated key signs the message, and the share is the index
as a big-endian `uint16` followed by the signature. -/
def signShares (suite : Suite E G1 G2) (dkg : List (Share F)) (msg : List Byte) :
    List (List Byte) :=
  dkg.map (fun x => encodeShare x.I (Sign F suite x.V msg))

/-- `pubPolyAll` of `main`: `pubPolyList[0]`, then `Add` of every further polynomial; the error
of `Add` is discarded and leaves a nil polynomial, whose next use panics. -/
def pubPolyAll (pubPolyList : List (PubPoly G2)) : Option (PubPoly G2) :=
  match pubPolyList with
  | [] => none
  | p0 :: rest => rest.foldlM (fun acc q => PubPoly.Add acc q) p0

end BLS

/-! ## A small instance: the cyclic group of order 7 -/

/-- The prime 7, for the field `ZMod 7`. -/
instance fact_prime_seven : Fact (Nat.Prime 7) := ⟨by norm_num⟩

/-- A curve whose group of points is the cyclic group of order 7 with generator 1; the
coordinates of a point are its residue, the quadratic residues modulo 7 are 1, 2 and 4. -/
def exampleCurve : Curve (ZMod 7) where
  N := 7
  P := 7
  G := 1
  X := fun p => (p.val : Int)
  Y := fun p => (p.val : Int)
  Jacobi := fun y p => if y % p = 0 then 0 else if y % p = 1 ∨ y % p = 2 ∨ y % p = 4 then 1 else -1
  GetE := fun m px py rX => ((SetBytes m + SetBytes rX : Nat) + px + py) % 7
  GetK0 := fun hash d _ => some ((SetBytes hash + SetBytes d) % 6 + 1)

/-- A party on `exampleCurve` with the private key 3 and the nonce 2. -/
def exampleParty : SchnorrParty (ZMod 7) :=
  { NewSchnorrParty exampleCurve (PrvKeyFromBytes exampleCurve [3]) with k0 := some 2 }

/-- Two parties on `exampleCurve` with the private keys 3 and 5. -/
def exampleParties : List (SchnorrParty (ZMod 7)) :=
  [NewSchnorrParty exampleCurve (PrvKeyFromBytes exampleCurve [3]),
   NewSchnorrParty exampleCurve (PrvKeyFromBytes exampleCurve [5])]

/-- The parties of `exampleParties` after signing, with the partial signatures 3 and 5. -/
def exampleSigned : List (SchnorrParty (ZMod 7)) :=
  [{ NewSchnorrParty exampleCurve (PrvKeyFromBytes exampleCurve [3]) with
      k0 := some 2, sig := bigEndian 32 3 },
   { NewSchnorrParty exampleCurve (PrvKeyFromBytes exampleCurve [5]) with
      k0 := some 4, sig := bigEndian 32 5 }]

/-- The multiples `0•G, 1•G, ..., 30•G` of the point `G = (2, 12)` on the curve
`y² = x³ + 7` over the field of 43 elements, whose group of points has the prime order 31; the
point at infinity is written `(0, 0)`. -/
def multiples43 : List (Int × Int) :=
  [(0, 0), (2, 12), (7, 7), (35, 21), (21, 18), (12, 12), (29, 31), (25, 18), (32, 40),
   (20, 40), (42, 7), (40, 25), (37, 36), (13, 21), (34, 40), (38, 21), (38, 22), (34, 3),
   (13, 22), (37, 7), (40, 18), (42, 36), (20, 3), (32, 3), (25, 25), (29, 12), (12, 31),
   (21, 25), (35, 22), (7, 36), (2, 31)]

/-- Legendre symbol modulo an odd prime by Euler's criterion. -/
def legendre (y p : Int) : Int :=
  if (y % p) ^ ((p.toNat - 1) / 2) % p = 0 then 0
  else if (y % p) ^ ((p.toNat - 1) / 2) % p = 1 then 1 else -1

/-- The curve `y² = x³ + 7` over the field of 43 elements: the point `k•G` is the residue `k`
modulo the group order 31, with the coordinates of `multiples43`. -/
def curve43 : Curve (ZMod 31) where
  N := 31
  P := 43
  G := 1
  X := fun p => (multiples43.getD p.val (0, 0)).1
  Y := fun p => (multiples43.getD p.val (0, 0)).2
  Jacobi := legendre
  GetE := fun m px py rX => ((SetBytes m + SetBytes rX : Nat) + px + py) % 31
  GetK0 := fun hash d _ => some ((SetBytes hash + SetBytes d) % 30 + 1)

/-- Two parties on `curve43` with the private keys 3 and 5; for the hash `[1, 2, 3, 4]` their
nonces are 14 and 16. -/
def parties43 : List (SchnorrParty (ZMod 31)) :=
  [NewSchnorrParty curve43 (PrvKeyFromBytes curve43 [3]),
   NewSchnorrParty curve43 (PrvKeyFromBytes curve43 [5])]

/-- Two parties on `curve43` with the private keys 3 and 6; for the hash `[1, 2, 3, 4]` their
nonces are 14 and 17, which sum to the group order. -/
def cancellingParties43 : List (SchnorrParty (ZMod 31)) :=
  [NewSchnorrParty curve43 (PrvKeyFromBytes curve43 [3]),
   NewSchnorrParty curve43 (PrvKeyFromBytes curve43 [6])]

/-- A pairing suite on the cyclic group of order 7: both groups are `ZMod 7`, the pairing is
the product, a point is encoded as the one byte of its residue, and `bls.Verify` accepts `sig`
for the key `X` when `e(sig, Base) = e(H(msg), X)`. -/
def exampleSuite : Suite Unit (ZMod 7) (ZMod 7) where
  hashToPoint := fun msg => ((SetBytes msg : Nat) : ZMod 7)
  marshalG1 := fun p => [(⟨p.val % 256, Nat.mod_lt _ (by decide)⟩ : Byte)]
  unmarshalG1 := fun bs =>
    match bs with
    | [b] => if b.val < 7 then some ((b.val : Nat) : ZMod 7) else none
    | _ => none
  Point := 0
  Base := 1
  Verify := fun X msg sig =>
    match sig with
    | [b] =>
      if b.val < 7 then
        (if ((b.val : Nat) : ZMod 7) * 1 = ((SetBytes msg : Nat) : ZMod 7) * X then none
         else some ())
      else some ()
    | _ => some ()

/-- A public polynomial over `ZMod 7` with the commitments 2 and 3. -/
def examplePublic : PubPoly (ZMod 7) := ⟨1, [2, 3]⟩

/-! ## Byte string lemmas -/

theorem SetBytes_append_singleton (l : List Byte) (b : Byte) :
    SetBytes (l ++ [b]) = SetBytes l * 256 + b.val := by
  simp [SetBytes, List.foldl_append]

theorem bigEndian_length (w v : Nat) : (bigEndian w v).length = w := by
  induction w generalizing v with
  | zero => rfl
  | succ w ih => simp [bigEndian, ih]

theorem SetBytes_bigEndian (w v : Nat) : SetBytes (bigEndian w v) = v % 256 ^ w := by
  induction w generalizing v with
  | zero => simp [bigEndian, SetBytes, Nat.mod_one]
  | succ w ih =>
    rw [bigEndian, SetBytes_append_singleton, ih]
    show v / 256 % 256 ^ w * 256 + v % 256 = v % 256 ^ (w + 1)
    rw [pow_succ, mul_comm (256 ^ w) 256, Nat.mod_mul]
    ring

theorem SetBytes_bigEndian_32 (v : Nat) (h : v < 2 ^ 256) : SetBytes (bigEndian 32 v) = v := by
  rw [SetBytes_bigEndian]
  exact Nat.mod_eq_of_lt (by norm_num at h ⊢; exact h)

theorem SetBytes_reverse_digits (ds : List Nat) (h : ∀ d ∈ ds, d < 256) :
    SetBytes ((ds.map (fun d => (⟨d % 256, Nat.mod_lt _ (by decide)⟩ : Byte))).reverse)
      = Nat.ofDigits 256 ds := by
  induction ds with
  | nil => simp [SetBytes]
  | cons d ds ih =>
    have hd : d < 256 := h d (List.mem_cons_self _ _)
    have ih2 := ih (fun x hx => h x (List.mem_cons_of_mem _ hx))
    rw [List.map_cons, List.reverse_cons, SetBytes_append_singleton, ih2, Nat.ofDigits_cons]
    show Nat.ofDigits 256 ds * 256 + d % 256 = d + 256 * Nat.ofDigits 256 ds
    rw [Nat.mod_eq_of_lt hd]
    ring

theorem SetBytes_Bytes (n : Nat) : SetBytes (Bytes n) = n := by
  unfold Bytes
  rw [SetBytes_reverse_digits _ (fun d hd => Nat.digits_lt_base (by decide) hd),
    Nat.ofDigits_digits]

theorem toNat_lt_two_pow (i : Int) (h0 : 0 ≤ i) (h1 : i < 2 ^ 256) : i.toNat < 2 ^ 256 := by
  have : ((i.toNat : Nat) : Int) < ((2 ^ 256 : Nat) : Int) := by
    rw [Int.toNat_of_nonneg h0]; exact_mod_cast h1
  exact_mod_cast this

theorem IntToByte_of_range (i : Int) (h0 : 0 ≤ i) (h1 : i < 2 ^ 256) :
    IntToByte i = some (bigEndian 32 i.toNat) := by
  have habs : i.natAbs = i.toNat := by omega
  rw [IntToByte, habs, if_pos (toNat_lt_two_pow i h0 h1)]

theorem copyInto_same_length (dst src : List Byte) (h : src.length = dst.length) :
    copyInto dst src = src := by
  simp [copyInto, ← h]

/-! ## Codec lemmas -/

theorem Index_cons_cons (b0 b1 : Byte) (rest : List Byte) :
    SigShare.Index (b0 :: b1 :: rest) = (((256 * b0.val + b1.val : Nat) : Int), none) := rfl

theorem Value_of_two_le (s : List Byte) (h : 2 ≤ s.length) :
    SigShare.Value s = some (s.drop 2) := by
  simp [SigShare.Value, h]

theorem putUint16_index (b0 b1 : Byte) : putUint16 (256 * b0.val + b1.val) = [b0, b1] := by
  have h0 := b0.isLt
  have h1 := b1.isLt
  simp only [putUint16]
  congr 1
  · apply Fin.ext
    show (256 * b0.val + b1.val) / 256 % 256 = b0.val
    omega
  · congr 1
    apply Fin.ext
    show (256 * b0.val + b1.val) % 256 = b1.val
    omega

theorem uint16_of_range (i : Int) (h0 : 0 ≤ i) (h1 : i ≤ 65535) : ((uint16 i : Nat) : Int) = i := by
  unfold uint16
  omega

theorem Index_encodeShare (i : Int) (payload : List Byte) (h0 : 0 ≤ i) (h1 : i ≤ 65535) :
    SigShare.Index (encodeShare i payload) = (i, none) := by
  have hi := uint16_of_range i h0 h1
  have hlt : uint16 i < 65536 := by unfold uint16; omega
  simp only [encodeShare, putUint16, List.cons_append, List.nil_append, Index_cons_cons]
  have : (256 * (uint16 i / 256 % 256) + uint16 i % 256 : Nat) = uint16 i := by omega
  rw [this, hi]

theorem Index_encodeShare_uint16 (i : Int) (payload : List Byte) :
    SigShare.Index (encodeShare i payload) = (((uint16 i : Nat) : Int), none) := by
  have hlt : uint16 i < 65536 := by unfold uint16; omega
  simp only [encodeShare, putUint16, List.cons_append, List.nil_append, Index_cons_cons]
  have : (256 * (uint16 i / 256 % 256) + uint16 i % 256 : Nat) = uint16 i := by omega
  rw [this]

theorem drop_two_encodeShare (i : Int) (payload : List Byte) :
    (encodeShare i payload).drop 2 = payload := by
  simp [encodeShare, putUint16]

theorem length_encodeShare (i : Int) (payload : List Byte) :
    2 ≤ (encodeShare i payload).length := by
  simp [encodeShare, putUint16]

/-! ## Codec theorems -/

/-- C8: decoding a share of at least 2 bytes with `Index` and `Value` and re-encoding the
result the way `main` does reproduces the share; conversely `Index` and `Value` applied to the
encoding of an index in `[0, 65535]` and a payload return that index and that payload. -/
theorem share_codec_roundtrip :
    (∀ s : List Byte, 2 ≤ s.length →
      ∃ v, SigShare.Value s = some v ∧ (SigShare.Index s).2 = none ∧
        encodeShare (SigShare.Index s).1 v = s) ∧
    (∀ (i : Int) (payload : List Byte), 0 ≤ i → i ≤ 65535 →
      SigShare.Index (encodeShare i payload) = (i, none) ∧
      SigShare.Value (encodeShare i payload) = some payload) := by
  constructor
  · intro s hs
    match s, hs with
    | b0 :: b1 :: rest, _ =>
      refine ⟨rest, by simp [SigShare.Value], rfl, ?_⟩
      have h0 := b0.isLt
      have h1 := b1.isLt
      have hu : uint16 (((256 * b0.val + b1.val : Nat) : Int)) = 256 * b0.val + b1.val := by
        unfold uint16
        omega
      simp only [Index_cons_cons, encodeShare, hu, putUint16_index]
      rfl
  · intro i payload h0 h1
    have hi := uint16_of_range i h0 h1
    have hlt : uint16 i < 65536 := by unfold uint16; omega
    constructor
    · simp only [encodeShare, putUint16, List.cons_append, List.nil_append, Index_cons_cons]
      have : (256 * (uint16 i / 256 % 256) + uint16 i % 256 : Nat) = uint16 i := by omega
      rw [this, hi]
    · simp [encodeShare, putUint16, SigShare.Value]

/-- C9: `Index` fails exactly on inputs shorter than 2 bytes, with index `-1` and a non-nil
error; on longer inputs it returns `256*b0 + b1`, a value in `[0, 65535]`, with a nil error, and
`Value` returns the bytes from offset 2 on. -/
theorem share_decode_fails_iff_short (s : List Byte) :
    (s.length < 2 → (SigShare.Index s).1 = -1 ∧ (SigShare.Index s).2 ≠ none) ∧
    (2 ≤ s.length →
      ∃ b0 b1 rest, s = b0 :: b1 :: rest ∧
        SigShare.Index s = (((256 * b0.val + b1.val : Nat) : Int), none) ∧
        0 ≤ (SigShare.Index s).1 ∧ (SigShare.Index s).1 ≤ 65535 ∧
        SigShare.Value s = some rest) ∧
    ((SigShare.Index s).2 ≠ none ↔ s.length < 2) := by
  match s with
  | [] => simp [SigShare.Index]
  | [b] => simp [SigShare.Index]
  | b0 :: b1 :: rest =>
    have h0 := b0.isLt
    have h1 := b1.isLt
    refine ⟨by simp, fun _ => ⟨b0, b1, rest, rfl, rfl, ?_, ?_, by simp [SigShare.Value]⟩,
      by simp [SigShare.Index]⟩
    · simp only [Index_cons_cons]
      omega
    · simp only [Index_cons_cons]
      omega

/-! ## Schnorr: partial signatures -/

section SchnorrSigning

variable {Pt : Type}

theorem generateSignature_eq (c : Curve Pt) (party : SchnorrParty Pt) (k0 : Int)
    (hk : party.k0 = some k0) (hN0 : 0 < party.N) (hN : party.N ≤ 2 ^ 256)
    (R P : Pt) (hX0 : 0 ≤ c.X R) (hX1 : c.X R < 2 ^ 256) :
    generateSignature c party R P =
      some ({ party with sig := bigEndian 32 ((GetK c (c.Y R) k0 +
          c.GetE party.hash (c.X P) (c.Y P) (bigEndian 32 (c.X R).toNat) * party.prv.D)
            % party.N).toNat },
        bigEndian 32 ((GetK c (c.Y R) k0 +
          c.GetE party.hash (c.X P) (c.Y P) (bigEndian 32 (c.X R).toNat) * party.prv.D)
            % party.N).toNat) := by
  have hne : party.N ≠ 0 := by omega
  have h0 := Int.emod_nonneg (GetK c (c.Y R) k0 +
      c.GetE party.hash (c.X P) (c.Y P) (bigEndian 32 (c.X R).toNat) * party.prv.D) hne
  have h1 := Int.emod_lt_of_pos (GetK c (c.Y R) k0 +
      c.GetE party.hash (c.X P) (c.Y P) (bigEndian 32 (c.X R).toNat) * party.prv.D) hN0
  simp only [generateSignature, hk, IntToByte_of_range _ hX0 hX1, Option.bind_eq_bind,
    Option.some_bind, if_neg hne, IntToByte_of_range _ h0 (lt_of_lt_of_le h1 hN)]

theorem signAll_eq (c : Curve Pt) (R P : Pt) (hX0 : 0 ≤ c.X R) (hX1 : c.X R < 2 ^ 256)
    (k : SchnorrParty Pt → Int) (parties : List (SchnorrParty Pt))
    (hk : ∀ p ∈ parties, p.k0 = some (k p) ∧ 0 < p.N ∧ p.N ≤ 2 ^ 256) :
    signAll c R P parties =
      some (parties.map (fun p => { p with sig := bigEndian 32 ((GetK c (c.Y R) (k p) +
          c.GetE p.hash (c.X P) (c.Y P) (bigEndian 32 (c.X R).toNat) * p.prv.D) % p.N).toNat })) := by
  induction parties with
  | nil => rfl
  | cons p rest ih =>
    obtain ⟨h1, h2, h3⟩ := hk p (List.mem_cons_self _ _)
    have hrest := ih (fun q hq => hk q (List.mem_cons_of_mem _ hq))
    simp only [signAll, generateSignature_eq c p (k p) h1 h2 h3 R P hX0 hX1, hrest,
      Option.bind_eq_bind, Option.some_bind, List.map_cons]

/-- C5: for a party with nonce `k0` and a modulus `0 < N ≤ 2^256`, and an aggregate nonce point
`R` whose x-coordinate fits 32 bytes, `generateSignature` returns and stores in `party.sig` the
32-byte big-endian encoding of `s = (k + e*d) mod N`, `0 ≤ s < N`, with
`e = GetE(curve, m, P.X, P.Y, bytes(R.X))` and `k = GetK(curve, R.Y, k0)`; the party's own nonce
point `party.r` has no influence on the result. -/
theorem generateSignature_encodes_share (c : Curve Pt) (party : SchnorrParty Pt) (k0 : Int)
    (hk : party.k0 = some k0) (hN0 : 0 < party.N) (hN : party.N ≤ 2 ^ 256)
    (R P : Pt) (hX0 : 0 ≤ c.X R) (hX1 : c.X R < 2 ^ 256) :
    ∃ (rX sig : List Byte) (s : Int),
      IntToByte (c.X R) = some rX ∧
      s = (GetK c (c.Y R) k0 + c.GetE party.hash (c.X P) (c.Y P) rX * party.prv.D) % party.N ∧
      0 ≤ s ∧ s < party.N ∧
      IntToByte s = some sig ∧ sig.length = 32 ∧ ((SetBytes sig : Nat) : Int) = s ∧
      generateSignature c party R P = some ({ party with sig := sig }, sig) ∧
      ∀ r1 : Option Pt, (generateSignature c { party with r := r1 } R P).map Prod.snd = some sig := by
  have hne : party.N ≠ 0 := by omega
  have h0 := Int.emod_nonneg (GetK c (c.Y R) k0 +
      c.GetE party.hash (c.X P) (c.Y P) (bigEndian 32 (c.X R).toNat) * party.prv.D) hne
  have h1 := Int.emod_lt_of_pos (GetK c (c.Y R) k0 +
      c.GetE party.hash (c.X P) (c.Y P) (bigEndian 32 (c.X R).toNat) * party.prv.D) hN0
  refine ⟨bigEndian 32 (c.X R).toNat, _, _, IntToByte_of_range _ hX0 hX1, rfl, h0, h1,
    IntToByte_of_range _ h0 (lt_of_lt_of_le h1 hN), bigEndian_length _ _, ?_,
    generateSignature_eq c party k0 hk hN0 hN R P hX0 hX1, ?_⟩
  · rw [SetBytes_bigEndian_32 _ (toNat_lt_two_pow _ h0 (lt_of_lt_of_le h1 hN))]
    exact Int.toNat_of_nonneg h0
  · intro r1
    rw [generateSignature_eq c { party with r := r1 } k0 hk hN0 hN R P hX0 hX1]
    rfl

end SchnorrSigning

/-! ## Schnorr: phase 5 and the final signature -/

section SchnorrPhase5

variable {Pt : Type}

theorem aggregateSig_eq (N : Int) (hN : N ≠ 0) (parties : List (SchnorrParty Pt))
    (hNs : ∀ p ∈ parties, p.N = N) (acc : Int) :
    aggregateSig parties (acc % N) =
      some ((acc + (parties.map (fun p => ((SetBytes p.sig : Nat) : Int))).sum) % N) := by
  induction parties generalizing acc with
  | nil => simp [aggregateSig]
  | cons p rest ih =>
    have hp : p.N = N := hNs p (List.mem_cons_self _ _)
    have hrest : ∀ q ∈ rest, q.N = N := fun q hq => hNs q (List.mem_cons_of_mem _ hq)
    simp only [aggregateSig, hp, if_neg hN, List.map_cons, List.sum_cons]
    rw [Int.emod_add_emod, ih hrest, add_assoc]

theorem sigFinal_eq (c : Curve Pt) (R : Pt) (aggs : Int) (hX0 : 0 ≤ c.X R)
    (hX1 : c.X R < 2 ^ 256) (ha0 : 0 ≤ aggs) (ha1 : aggs < 2 ^ 256) :
    sigFinal c R aggs = some (bigEndian 32 (c.X R).toNat ++ bigEndian 32 aggs.toNat) := by
  simp only [sigFinal, IntToByte_of_range _ hX0 hX1, IntToByte_of_range _ ha0 ha1,
    Option.bind_eq_bind, Option.some_bind]
  have hl : ∀ v : Nat, (bigEndian 32 v).length = ((List.replicate 64 (0 : Byte)).take 32).length := by
    intro v
    simp [bigEndian_length]
  have hr : ∀ v : Nat, (bigEndian 32 v).length = ((List.replicate 64 (0 : Byte)).drop 32).length := by
    intro v
    simp [bigEndian_length]
  rw [copyInto_same_length _ _ (hl _), copyInto_same_length _ _ (hr _)]

theorem parseSig_eq (x s : Int) (hx0 : 0 ≤ x) (hx1 : x < 2 ^ 256) (hs0 : 0 ≤ s)
    (hs1 : s < 2 ^ 256) :
    parseSig (bigEndian 32 x.toNat ++ bigEndian 32 s.toNat) = (x, s) := by
  have h1 : (bigEndian 32 x.toNat ++ bigEndian 32 s.toNat).take 32 = bigEndian 32 x.toNat :=
    List.take_left' (bigEndian_length 32 x.toNat)
  have h2 : (bigEndian 32 x.toNat ++ bigEndian 32 s.toNat).drop 32 = bigEndian 32 s.toNat :=
    List.drop_left' (bigEndian_length 32 x.toNat)
  simp only [parseSig, h1, h2, SetBytes_bigEndian_32 _ (toNat_lt_two_pow _ hx0 hx1),
    SetBytes_bigEndian_32 _ (toNat_lt_two_pow _ hs0 hs1), Int.toNat_of_nonneg hx0,
    Int.toNat_of_nonneg hs0]

/-- C6: for parties sharing a modulus `0 < N ≤ 2^256` whose `sig` fields are the 32-byte
big-endian encodings of values `s_i`, the phase-5 loop ends with `aggs = (Σ s_i) mod N`,
`0 ≤ aggs < N`; the final signature is the 64 bytes `bigEndian 32 R.x ++ bigEndian 32 aggs`, and
phase 6 parses it back to exactly `(R.x, aggs)`. -/
theorem phase5_sum_and_final_signature (c : Curve Pt) (N : Int) (hN0 : 0 < N)
    (hN : N ≤ 2 ^ 256) (parties : List (SchnorrParty Pt)) (hNs : ∀ p ∈ parties, p.N = N)
    (ss : List Nat) (hss : ∀ s ∈ ss, s < 2 ^ 256)
    (hsig : parties.map (fun p => p.sig) = ss.map (bigEndian 32))
    (R : Pt) (hX0 : 0 ≤ c.X R) (hX1 : c.X R < 2 ^ 256) :
    ∃ (aggs : Int) (sig : List Byte),
      aggregateSig parties 0 = some aggs ∧
      aggs = (ss.map (fun s : Nat => (s : Int))).sum % N ∧ 0 ≤ aggs ∧ aggs < N ∧
      sigFinal c R aggs = some sig ∧ sig.length = 64 ∧
      sig = bigEndian 32 (c.X R).toNat ++ bigEndian 32 aggs.toNat ∧
      parseSig sig = (c.X R, aggs) := by
  have hne0 : N ≠ 0 := by omega
  have hsum : parties.map (fun p => ((SetBytes p.sig : Nat) : Int)) =
      ss.map (fun s : Nat => (s : Int)) := by
    have h1 : parties.map (fun p => ((SetBytes p.sig : Nat) : Int)) =
        (parties.map (fun p => p.sig)).map (fun b => ((SetBytes b : Nat) : Int)) := by
      simp [List.map_map, Function.comp_def]
    rw [h1, hsig, List.map_map]
    apply List.map_congr_left
    intro s hs
    simp [SetBytes_bigEndian_32 s (hss s hs)]
  have hagg := aggregateSig_eq N hne0 parties hNs 0
  rw [Int.zero_emod, zero_add, hsum] at hagg
  have h0 := Int.emod_nonneg (ss.map (fun s : Nat => (s : Int))).sum hne0
  have h1 := Int.emod_lt_of_pos (ss.map (fun s : Nat => (s : Int))).sum hN0
  have h2 := lt_of_lt_of_le h1 hN
  refine ⟨_, _, hagg, rfl, h0, h1, sigFinal_eq c R _ hX0 hX1 h0 h2, ?_, rfl,
    parseSig_eq _ _ hX0 hX1 h0 h2⟩
  simp [bigEndian_length]

end SchnorrPhase5

/-! ## Schnorr: subset selection and key aggregation -/

section SchnorrSelection

theorem pickPartiesFrom_eq {α : Type} (allParties : List α) (picks : List Bool) (i : Nat)
    (h : i + picks.length ≤ allParties.length) (parties : List α) :
    pickPartiesFrom allParties i picks parties =
      some (parties ++ selectedParties picks (allParties.drop i)) := by
  induction picks generalizing i parties with
  | nil => simp [pickPartiesFrom, selectedParties]
  | cons pick rest ih =>
    have hi : i < allParties.length := by simp only [List.length_cons] at h; omega
    have hrest : i + 1 + rest.length ≤ allParties.length := by
      simp only [List.length_cons] at h; omega
    have hdrop : allParties.drop i = allParties[i] :: allParties.drop (i + 1) :=
      List.drop_eq_getElem_cons hi
    have hget : allParties[i]? = some allParties[i] := List.getElem?_eq_getElem hi
    cases pick with
    | true =>
      simp only [pickPartiesFrom, if_true, hget]
      rw [ih (i + 1) hrest, hdrop]
      simp only [selectedParties, List.zip_cons_cons, List.filter_cons, if_true, List.map_cons,
        List.append_assoc, List.singleton_append]
    | false =>
      simp only [pickPartiesFrom]
      rw [if_neg (by simp), ih (i + 1) hrest, hdrop]
      simp only [selectedParties, List.zip_cons_cons, List.filter_cons]
      rw [if_neg (by simp)]

theorem selectedParties_ne_nil {α : Type} (picks : List Bool) (allParties : List α)
    (hlen : picks.length ≤ allParties.length) (htrue : true ∈ picks) :
    selectedParties picks allParties ≠ [] := by
  induction picks generalizing allParties with
  | nil => simp at htrue
  | cons pick rest ih =>
    match allParties, hlen with
    | a :: more, hlen =>
      cases pick with
      | true => simp [selectedParties]
      | false =>
        have hmem : true ∈ rest := by simpa using htrue
        have hl : rest.length ≤ more.length := by simpa using hlen
        have := ih more hl hmem
        simpa [selectedParties] using this

variable {Pt : Type} [AddCommGroup Pt]

theorem foldl_PubKey_Add (rest : List (SchnorrParty Pt)) (acc : Pt) :
    rest.foldl (fun sharePub p => PubKey.Add sharePub p.pub) acc =
      acc + (rest.map (fun p => p.pub)).sum := by
  induction rest generalizing acc with
  | nil => simp
  | cons p rest ih =>
    simp only [List.foldl_cons, List.map_cons, List.sum_cons]
    rw [ih]
    simp only [PubKey.Add]
    abel

theorem aggregatePub_eq_sum (parties : List (SchnorrParty Pt)) (hne : parties ≠ []) :
    aggregatePub parties = some (parties.map (fun p => p.pub)).sum := by
  match parties, hne with
  | p0 :: rest, _ => simp [aggregatePub, foldl_PubKey_Add]

/-- C7: with `len(picks) ≤ len(allParties)` and at least one true entry, `pickParties` returns
exactly the parties whose mask entry is true, in their original order; the phase-1 left fold of
`PubKey.Add` over them is the group sum of their public keys, and it is the same point for every
permutation of the selected parties. -/
theorem pickParties_and_aggregate_key (picks : List Bool) (allParties : List (SchnorrParty Pt))
    (hlen : picks.length ≤ allParties.length) (htrue : true ∈ picks) :
    pickParties picks allParties = some (selectedParties picks allParties) ∧
    selectedParties picks allParties ≠ [] ∧
    aggregatePub (selectedParties picks allParties) =
      some ((selectedParties picks allParties).map (fun p => p.pub)).sum ∧
    ∀ permuted : List (SchnorrParty Pt), permuted.Perm (selectedParties picks allParties) →
      aggregatePub permuted = aggregatePub (selectedParties picks allParties) := by
  have hsel := selectedParties_ne_nil picks allParties hlen htrue
  refine ⟨?_, hsel, aggregatePub_eq_sum _ hsel, ?_⟩
  · have := pickPartiesFrom_eq allParties picks 0 (by simpa using hlen) []
    simpa [pickParties] using this
  · intro permuted hperm
    have hne : permuted ≠ [] := by
      intro h
      rw [h] at hperm
      exact hsel (List.Perm.nil_eq hperm).symm
    rw [aggregatePub_eq_sum _ hne, aggregatePub_eq_sum _ hsel]
    exact congrArg some (List.Perm.sum_eq (List.Perm.map _ hperm))

end SchnorrSelection

/-! ## Schnorr: the aggregated signature satisfies the verification equation -/

section SchnorrEquation

variable {Pt : Type} [AddCommGroup Pt]

theorem NewSchnorrParty_wf (c : Curve Pt) (key : List Byte) :
    (NewSchnorrParty c (PrvKeyFromBytes c key)).N = c.N ∧
    (NewSchnorrParty c (PrvKeyFromBytes c key)).pub =
      (NewSchnorrParty c (PrvKeyFromBytes c key)).prv.D • c.G := by
  refine ⟨rfl, ?_⟩
  show SetBytes key • c.G = ((SetBytes key : Nat) : Int) • c.G
  rw [natCast_zsmul]

theorem zsmul_emod_order (N : Int) (G : Pt) (hG : N • G = 0) (x : Int) :
    (x % N) • G = x • G := by
  have h : x % N = x - N * (x / N) := Int.emod_def x N
  rw [h, sub_smul, mul_comm, mul_smul, hG, smul_zero, sub_zero]

theorem sum_share_zsmul {α : Type} (N : Int) (G : Pt) (hG : N • G = 0) (l : List α)
    (k d : α → Int) (e : Int) :
    (l.map (fun a => (k a + e * d a) % N)).sum • G =
      (l.map (fun a => k a • G)).sum + e • (l.map (fun a => d a • G)).sum := by
  induction l with
  | nil => simp
  | cons a l ih =>
    simp only [List.map_cons, List.sum_cons, add_smul, ih, zsmul_emod_order N G hG, mul_smul,
      smul_add]
    abel

theorem sum_negated_zsmul {α : Type} (N : Int) (G : Pt) (hG : N • G = 0) (l : List α)
    (k : α → Int) :
    (l.map (fun a => (N - k a) • G)).sum = -(l.map (fun a => k a • G)).sum := by
  induction l with
  | nil => simp
  | cons a l ih =>
    simp only [List.map_cons, List.sum_cons]
    rw [ih, sub_smul, hG, zero_sub, neg_add]

theorem getScalar_eq (c : Curve Pt) (party : SchnorrParty Pt) (hash : List Byte) (k : Nat)
    (hk : nonceOf c hash party = some k) :
    getScalar c party hash =
      some ({ party with k0 := some (k : Int), hash := hash, r := some (k • c.G) }, k • c.G) := by
  simp only [nonceOf, Option.bind_eq_bind] at hk
  simp only [getScalar, Option.bind_eq_bind]
  cases hd : IntToByte party.prv.D with
  | none => simp [hd] at hk
  | some d =>
    simp only [hd, Option.some_bind] at hk ⊢
    simp only [hk, Option.some_bind, ScalarBaseMult, SetBytes_Bytes]

theorem allScalars_eq (c : Curve Pt) (hash : List Byte) (k : SchnorrParty Pt → Nat)
    (parties : List (SchnorrParty Pt)) (hk : ∀ p ∈ parties, nonceOf c hash p = some (k p)) :
    allScalars c hash parties =
      some (parties.map (fun p =>
          { p with k0 := some (k p : Int), hash := hash, r := some (k p • c.G) }),
        parties.map (fun p => k p • c.G)) := by
  induction parties with
  | nil => rfl
  | cons p rest ih =>
    have hp := hk p (List.mem_cons_self _ _)
    have hrest := ih (fun q hq => hk q (List.mem_cons_of_mem _ hq))
    simp only [allScalars, getScalar_eq c p hash (k p) hp, hrest, Option.bind_eq_bind,
      Option.some_bind, List.map_cons]

theorem aggregateR_eq_sum (rs : List Pt) (hne : rs ≠ []) : aggregateR rs = some rs.sum := by
  match rs, hne with
  | r0 :: rest, _ =>
    have h : ∀ (l : List Pt) (acc : Pt),
        l.foldl (fun shareScalarR r => shareScalarR + r) acc = acc + l.sum := by
      intro l
      induction l with
      | nil => simp
      | cons r l ih =>
        intro acc
        simp only [List.foldl_cons, List.sum_cons, ih]
        abel
    simp [aggregateR, h]

theorem Verify_of_equation (c : Curve Pt) (hP256 : c.P ≤ 2 ^ 256)
    (hX : ∀ p : Pt, 0 ≤ c.X p ∧ c.X p < c.P)
    (hneg : ∀ p : Pt, c.X (-p) = c.X p)
    (hinf : ∀ p : Pt, (c.X p = 0 ∧ c.Y p = 0) ↔ p = 0)
    (hres : ∀ p : Pt, p ≠ 0 → c.Jacobi (c.Y p) c.P ≠ 1 → c.Jacobi (c.Y (-p)) c.P = 1)
    (P R : Pt) (m : List Byte) (s : Int) (hs : s < c.N)
    (heq : s • c.G = (if c.Jacobi (c.Y R) c.P = 1 then R else -R) +
      c.GetE m (c.X P) (c.Y P) (bigEndian 32 (c.X R).toNat) • P) :
    ∃ pass : Bool, Verify c P m (c.X R) s = some pass ∧ (pass = true ↔ R ≠ 0) := by
  have hX0 : 0 ≤ c.X R := (hX R).1
  have hX1 : c.X R < 2 ^ 256 := lt_of_lt_of_le (hX R).2 hP256
  have hrange : ¬ (c.P ≤ c.X R ∨ c.N ≤ s) := by
    have := (hX R).2
    omega
  have hsub : s • c.G - c.GetE m (c.X P) (c.Y P) (bigEndian 32 (c.X R).toNat) • P =
      (if c.Jacobi (c.Y R) c.P = 1 then R else -R) := by
    rw [heq, add_sub_cancel_right]
  simp only [Verify, if_neg hrange, IntToByte_of_range _ hX0 hX1, Option.bind_eq_bind,
    Option.some_bind, hsub]
  by_cases hR0 : R = 0
  · have hK : (if c.Jacobi (c.Y R) c.P = 1 then R else -R) = 0 := by
      rw [hR0, neg_zero, ite_self]
    refine ⟨false, ?_, by simp [hR0]⟩
    rw [hK, if_pos (Or.inl ((hinf 0).mpr rfl))]
  · refine ⟨true, ?_, by simp [hR0]⟩
    by_cases hj : c.Jacobi (c.Y R) c.P = 1
    · rw [if_pos hj]
      rw [if_neg]
      intro h
      rcases h with h | h | h
      · exact hR0 ((hinf R).mp h)
      · exact h hj
      · exact h rfl
    · rw [if_neg hj]
      rw [if_neg]
      intro h
      rcases h with h | h | h
      · exact hR0 (neg_eq_zero.mp ((hinf (-R)).mp h))
      · exact h (hres R hR0 hj)
      · exact h (hneg R)

theorem runSession_eq (c : Curve Pt) (hG : c.N • c.G = 0)
    (hN0 : 0 < c.N) (hN : c.N ≤ 2 ^ 256) (hP256 : c.P ≤ 2 ^ 256)
    (hX : ∀ p : Pt, 0 ≤ c.X p ∧ c.X p < c.P)
    (hneg : ∀ p : Pt, c.X (-p) = c.X p)
    (hinf : ∀ p : Pt, (c.X p = 0 ∧ c.Y p = 0) ↔ p = 0)
    (hres : ∀ p : Pt, p ≠ 0 → c.Jacobi (c.Y p) c.P ≠ 1 → c.Jacobi (c.Y (-p)) c.P = 1)
    (parties : List (SchnorrParty Pt)) (hne : parties ≠ [])
    (hwf : ∀ p ∈ parties, p.N = c.N ∧ p.pub = p.prv.D • c.G)
    (hash : List Byte) (k : SchnorrParty Pt → Nat)
    (hk : ∀ p ∈ parties, nonceOf c hash p = some (k p)) :
    ∃ ses : Session Pt,
      runSession c parties hash = some ses ∧
      ses.sharePub = (parties.map (fun p => p.prv.D • c.G)).sum ∧
      ses.shareScalarR = (parties.map (fun p => k p • c.G)).sum ∧
      ses.r = c.X ses.shareScalarR ∧
      ses.s = (parties.map (fun p => (GetK c (c.Y ses.shareScalarR) (k p) +
        c.GetE hash (c.X ses.sharePub) (c.Y ses.sharePub)
          (bigEndian 32 (c.X ses.shareScalarR).toNat) * p.prv.D) % c.N)).sum % c.N ∧
      ses.s • c.G =
        (if c.Jacobi (c.Y ses.shareScalarR) c.P = 1 then ses.shareScalarR
          else -ses.shareScalarR) +
        c.GetE hash (c.X ses.sharePub) (c.Y ses.sharePub)
          (bigEndian 32 (c.X ses.shareScalarR).toNat) • ses.sharePub ∧
      (ses.pass = true ↔ ses.shareScalarR ≠ 0) := by
  -- phase 1
  have hP := aggregatePub_eq_sum parties hne
  have hPsum : (parties.map (fun p => p.pub)).sum = (parties.map (fun p => p.prv.D • c.G)).sum :=
    congrArg List.sum (List.map_congr_left (fun p hp => (hwf p hp).2))
  rw [hPsum] at hP
  obtain ⟨P, hPdef⟩ : ∃ P, (parties.map (fun p => p.prv.D • c.G)).sum = P := ⟨_, rfl⟩
  rw [hPdef] at hP
  -- phases 2 and 3
  have h2 := allScalars_eq c hash k parties hk
  have hR := aggregateR_eq_sum (parties.map (fun p => k p • c.G)) (by simpa using hne)
  obtain ⟨R, hRdef⟩ : ∃ R, (parties.map (fun p => k p • c.G)).sum = R := ⟨_, rfl⟩
  rw [hRdef] at hR
  have hX0 : 0 ≤ c.X R := (hX R).1
  have hX1 : c.X R < 2 ^ 256 := lt_of_lt_of_le (hX R).2 hP256
  obtain ⟨e, he⟩ : ∃ e, c.GetE hash (c.X P) (c.Y P) (bigEndian 32 (c.X R).toNat) = e := ⟨_, rfl⟩
  have hne0 : c.N ≠ 0 := by omega
  -- phase 4
  have h4 : signAll c R P (parties.map (fun p =>
        { p with k0 := some (k p : Int), hash := hash, r := some (k p • c.G) })) =
      some (parties.map (fun p =>
        { p with k0 := some (k p : Int), hash := hash, r := some (k p • c.G),
                 sig := bigEndian 32 ((GetK c (c.Y R) (k p) + e * p.prv.D) % c.N).toNat })) := by
    rw [signAll_eq c R P hX0 hX1 (fun q => q.k0.getD 0) _ (by
      intro q hq
      obtain ⟨p, hp, rfl⟩ := List.mem_map.mp hq
      exact ⟨rfl, by rw [(hwf p hp).1]; exact hN0, by rw [(hwf p hp).1]; exact hN⟩),
      List.map_map]
    refine congrArg some (List.map_congr_left ?_)
    intro p hp
    simp only [Function.comp_apply, Option.getD_some, (hwf p hp).1, he]
  -- phase 5
  obtain ⟨S, hs⟩ :
      ∃ S, (parties.map (fun p => (GetK c (c.Y R) (k p) + e * p.prv.D) % c.N)).sum = S :=
    ⟨_, rfl⟩
  have h5 : aggregateSig (parties.map (fun p =>
        { p with k0 := some (k p : Int), hash := hash, r := some (k p • c.G),
                 sig := bigEndian 32 ((GetK c (c.Y R) (k p) + e * p.prv.D) % c.N).toNat })) 0 =
      some (S % c.N) := by
    have h := aggregateSig_eq c.N hne0 (parties.map (fun p =>
        { p with k0 := some (k p : Int), hash := hash, r := some (k p • c.G),
                 sig := bigEndian 32 ((GetK c (c.Y R) (k p) + e * p.prv.D) % c.N).toNat }))
      (by
        intro q hq
        obtain ⟨p, hp, rfl⟩ := List.mem_map.mp hq
        exact (hwf p hp).1) 0
    rw [Int.zero_emod, zero_add, List.map_map] at h
    rw [h, ← hs]
    refine congrArg (fun l : List Int => some (l.sum % c.N)) (List.map_congr_left ?_)
    intro p _
    have hb0 := Int.emod_nonneg (GetK c (c.Y R) (k p) + e * p.prv.D) hne0
    have hb1 := lt_of_lt_of_le (Int.emod_lt_of_pos (GetK c (c.Y R) (k p) + e * p.prv.D) hN0) hN
    simp only [Function.comp_apply]
    rw [SetBytes_bigEndian_32 _ (toNat_lt_two_pow _ hb0 hb1), Int.toNat_of_nonneg hb0]
  have hs0 := Int.emod_nonneg S hne0
  have hs1 := Int.emod_lt_of_pos S hN0
  have hs2 := lt_of_lt_of_le hs1 hN
  have h6 := sigFinal_eq c R (S % c.N) hX0 hX1 hs0 hs2
  have h7 := parseSig_eq (c.X R) (S % c.N) hX0 hX1 hs0 hs2
  -- the equation
  have heq : (S % c.N) • c.G = (if c.Jacobi (c.Y R) c.P = 1 then R else -R) + e • P := by
    rw [zsmul_emod_order c.N c.G hG, ← hs]
    by_cases hj : c.Jacobi (c.Y R) c.P = 1
    · simp only [GetK, hj, if_true]
      rw [sum_share_zsmul c.N c.G hG parties (fun p => (k p : Int)) (fun p => p.prv.D) e]
      simp only [natCast_zsmul, hRdef, hPdef]
    · simp only [GetK, hj, if_false]
      rw [sum_share_zsmul c.N c.G hG parties (fun p => c.N - (k p : Int)) (fun p => p.prv.D) e,
        sum_negated_zsmul c.N c.G hG parties (fun p => (k p : Int))]
      simp only [natCast_zsmul, hRdef, hPdef]
  -- phase 6
  obtain ⟨pass, hpass, hpassiff⟩ := Verify_of_equation c hP256 hX hneg hinf hres P R hash
    (S % c.N) hs1 (by rw [he]; exact heq)
  have hrun : runSession c parties hash = some
      { pickedParties := parties.map (fun p =>
          { p with k0 := some (k p : Int), hash := hash, r := some (k p • c.G),
                   sig := bigEndian 32 ((GetK c (c.Y R) (k p) + e * p.prv.D) % c.N).toNat }),
        sharePub := P, shareScalarR := R, aggs := S % c.N,
        sigFinal := bigEndian 32 (c.X R).toNat ++ bigEndian 32 (S % c.N).toNat,
        r := c.X R, s := S % c.N, pass := pass } := by
    simp only [runSession, hP, h2, hR, h4, h5, h6, h7, hpass, Option.bind_eq_bind,
      Option.some_bind]
  refine ⟨_, hrun, hPdef.symm, hRdef.symm, rfl, ?_, ?_, hpassiff⟩
  · show S % c.N = _
    rw [he, hs]
  · show (S % c.N) • c.G = _
    rw [he]
    exact heq

/-- C1: on a curve whose base point has order dividing `N` (`N • G = 0`, `0 < N ≤ 2^256`), with
coordinates in `[0, P)`, `P ≤ 2^256`, where a point and its negative share the x-coordinate,
only the point at infinity has the coordinates `(0, 0)` and the negative of a finite point whose
y-coordinate is no quadratic residue has one that is: for a non-empty list of parties with public
keys `d_i • G` and nonces `k_i` derived by `getScalar`, the run of `main` succeeds; its aggregate
key is `P = Σ d_i • G`, its aggregate nonce is `R = Σ k_i • G`, the parsed signature is `(R.x, s)`
with `0 ≤ s < N`, and `s • G = K + e • P` where `e = GetE(m, P, bytes(R.x))` and `K = R` when
`GetK` keeps `k0` for `R.y` (Jacobi symbol 1) and `K = -R` when it negates it; `K` has the
x-coordinate `R.x`; and `schnorr.Verify` accepts `(R.x, s)` against `P` exactly when the aggregate
nonce `R` is not the point at infinity. -/
theorem schnorr_aggregate_verifies (c : Curve Pt) (hG : c.N • c.G = 0)
    (hN0 : 0 < c.N) (hN : c.N ≤ 2 ^ 256) (hP256 : c.P ≤ 2 ^ 256)
    (hX : ∀ p : Pt, 0 ≤ c.X p ∧ c.X p < c.P)
    (hneg : ∀ p : Pt, c.X (-p) = c.X p)
    (hinf : ∀ p : Pt, (c.X p = 0 ∧ c.Y p = 0) ↔ p = 0)
    (hres : ∀ p : Pt, p ≠ 0 → c.Jacobi (c.Y p) c.P ≠ 1 → c.Jacobi (c.Y (-p)) c.P = 1)
    (parties : List (SchnorrParty Pt)) (hne : parties ≠ [])
    (hwf : ∀ p ∈ parties, p.N = c.N ∧ p.pub = p.prv.D • c.G)
    (hash : List Byte) (k : SchnorrParty Pt → Nat)
    (hk : ∀ p ∈ parties, nonceOf c hash p = some (k p)) :
    ∃ (ses : Session Pt) (rX : List Byte),
      runSession c parties hash = some ses ∧
      ses.sharePub = (parties.map (fun p => p.prv.D • c.G)).sum ∧
      ses.shareScalarR = (parties.map (fun p => k p • c.G)).sum ∧
      IntToByte (c.X ses.shareScalarR) = some rX ∧
      ses.r = c.X ses.shareScalarR ∧ 0 ≤ ses.s ∧ ses.s < c.N ∧
      ses.s • c.G =
        (if c.Jacobi (c.Y ses.shareScalarR) c.P = 1 then ses.shareScalarR
          else -ses.shareScalarR) +
        c.GetE hash (c.X ses.sharePub) (c.Y ses.sharePub) rX • ses.sharePub ∧
      c.X (if c.Jacobi (c.Y ses.shareScalarR) c.P = 1 then ses.shareScalarR
          else -ses.shareScalarR) = ses.r ∧
      (ses.pass = true ↔ ses.shareScalarR ≠ 0) := by
  obtain ⟨ses, hrun, hP, hR, hr, hs, heq, hpass⟩ :=
    runSession_eq c hG hN0 hN hP256 hX hneg hinf hres parties hne hwf hash k hk
  have hne0 : c.N ≠ 0 := by omega
  have hX0 : 0 ≤ c.X ses.shareScalarR := (hX ses.shareScalarR).1
  have hX1 : c.X ses.shareScalarR < 2 ^ 256 := lt_of_lt_of_le (hX ses.shareScalarR).2 hP256
  have hs0 : 0 ≤ ses.s := by
    rw [hs]
    exact Int.emod_nonneg _ hne0
  have hs1 : ses.s < c.N := by
    rw [hs]
    exact Int.emod_lt_of_pos _ hN0
  refine ⟨ses, bigEndian 32 (c.X ses.shareScalarR).toNat, hrun, hP, hR,
    IntToByte_of_range _ hX0 hX1, hr, hs0, hs1, heq, ?_, hpass⟩
  rw [hr]
  by_cases hj : c.Jacobi (c.Y ses.shareScalarR) c.P = 1
  · rw [if_pos hj]
  · rw [if_neg hj, hneg]

end SchnorrEquation

/-! ## BLS: the verification loop of `recoverSig` -/

section RecoverSigLoop

variable (F : Type) [Field F] {E G1 G2 : Type}
variable [AddCommGroup G1] [Module F G1] [AddCommGroup G2] [Module F G2]

theorem recoverSigLoop_short (suite : Suite E G1 G2) (public : PubPoly G2) (msg : List Byte)
    (bad : List Byte) (post : List (List Byte)) (acc : List (Share G1))
    (hbad : bad.length < 2) :
    recoverSigLoop F suite public msg (bad :: post) acc = Outcome.crash := by
  have hv : SigShare.Value bad = none := by
    simp only [SigShare.Value]
    rw [if_neg (by omega)]
  simp only [recoverSigLoop, hv]

theorem recoverSigLoop_reject (suite : Suite E G1 G2) (public : PubPoly G2) (msg : List Byte)
    (bad : List Byte) (post : List (List Byte)) (acc : List (Share G1))
    (hlen : 2 ≤ bad.length) (err : E) (hbad : verifyShare F suite public msg bad = some err) :
    recoverSigLoop F suite public msg (bad :: post) acc = Outcome.error err := by
  simp only [verifyShare] at hbad
  simp only [recoverSigLoop, Value_of_two_le bad hlen, hbad]

theorem recoverSigLoop_accept (suite : Suite E G1 G2) (public : PubPoly G2) (msg : List Byte)
    (sig : List Byte) (rest : List (List Byte)) (acc : List (Share G1))
    (hlen : 2 ≤ sig.length) (hok : verifyShare F suite public msg sig = none) :
    recoverSigLoop F suite public msg (sig :: rest) acc =
      recoverSigLoop F suite public msg rest (acc ++ [toPubShare suite sig]) := by
  simp only [verifyShare] at hok
  simp only [recoverSigLoop, Value_of_two_le sig hlen, hok, toPubShare]

theorem recoverSigLoop_append (suite : Suite E G1 G2) (public : PubPoly G2) (msg : List Byte)
    (pre rest : List (List Byte)) (acc : List (Share G1))
    (hpre : ∀ s ∈ pre, 2 ≤ s.length ∧ verifyShare F suite public msg s = none) :
    recoverSigLoop F suite public msg (pre ++ rest) acc =
      recoverSigLoop F suite public msg rest (acc ++ pre.map (toPubShare suite)) := by
  induction pre generalizing acc with
  | nil => simp
  | cons s pre ih =>
    obtain ⟨h1, h2⟩ := hpre s (List.mem_cons_self _ _)
    rw [List.cons_append, recoverSigLoop_accept F suite public msg s _ acc h1 h2,
      ih _ (fun x hx => hpre x (List.mem_cons_of_mem _ hx))]
    simp

theorem exists_first_rejected {α E : Type} (check : α → Option E) (l : List α)
    (h : ∃ s ∈ l, check s ≠ none) :
    ∃ (pre : List α) (bad : α) (post : List α) (err : E),
      l = pre ++ bad :: post ∧ (∀ s ∈ pre, check s = none) ∧ check bad = some err := by
  induction l with
  | nil => obtain ⟨s, hs, _⟩ := h; simp at hs
  | cons a l ih =>
    cases ha : check a with
    | some err => exact ⟨[], a, l, err, rfl, by simp, ha⟩
    | none =>
      obtain ⟨s, hs, hne⟩ := h
      have hs2 : s ∈ l := by
        rcases List.mem_cons.mp hs with rfl | hmem
        · exact absurd ha hne
        · exact hmem
      obtain ⟨pre, bad, post, err, h1, h2, h3⟩ := ih ⟨s, hs2, hne⟩
      refine ⟨a :: pre, bad, post, err, by rw [h1]; rfl, ?_, h3⟩
      intro x hx
      rcases List.mem_cons.mp hx with rfl | hmem
      · exact ha
      · exact h2 x hmem

theorem recoverSigLoop_ok_all_verified (suite : Suite E G1 G2) (public : PubPoly G2)
    (msg : List Byte) (sigs : List (List Byte)) (acc shares : List (Share G1))
    (hlen : ∀ s ∈ sigs, 2 ≤ s.length)
    (hok : recoverSigLoop F suite public msg sigs acc = Outcome.ok shares) :
    (∀ s ∈ sigs, verifyShare F suite public msg s = none) ∧
      shares = acc ++ sigs.map (toPubShare suite) := by
  induction sigs generalizing acc with
  | nil =>
    simp only [recoverSigLoop, Outcome.ok.injEq] at hok
    simp [hok]
  | cons s rest ih =>
    have hs := hlen s (List.mem_cons_self _ _)
    cases hv : verifyShare F suite public msg s with
    | some err =>
      rw [recoverSigLoop_reject F suite public msg s rest acc hs err hv] at hok
      exact absurd hok (by simp)
    | none =>
      rw [recoverSigLoop_accept F suite public msg s rest acc hs hv] at hok
      obtain ⟨h1, h2⟩ := ih _ (fun x hx => hlen x (List.mem_cons_of_mem _ hx)) hok
      refine ⟨?_, by rw [h2]; simp⟩
      intro x hx
      rcases List.mem_cons.mp hx with rfl | hmem
      · exact hv
      · exact h1 x hmem

/-- C3: in a list of shares of at least 2 bytes each, if some share is rejected by `bls.Verify`
against `public.Eval(index).V`, then `recoverSig` returns a nil signature with the verification
error of the first rejected share in list order, whatever the recovery step would do (it is
never consulted); and the loop hands shares to recovery only when every share of the list has
verified, in which case they are the shares of the whole list in order. -/
theorem recoverSig_aborts_on_first_rejected_share (suite : Suite E G1 G2)
    (public : PubPoly G2) (msg : List Byte) (sigs : List (List Byte))
    (hlen : ∀ s ∈ sigs, 2 ≤ s.length) :
    ((∃ s ∈ sigs, verifyShare F suite public msg s ≠ none) →
      ∃ (pre : List (List Byte)) (bad : List Byte) (post : List (List Byte)) (err : E),
        sigs = pre ++ bad :: post ∧
        (∀ s ∈ pre, verifyShare F suite public msg s = none) ∧
        verifyShare F suite public msg bad = some err ∧
        (∀ t n : Nat, recoverSig F suite public msg sigs t n = Outcome.error err) ∧
        (∀ (recover : List (Share G1) → Nat → Nat → Except ShareError G1) (t n : Nat),
          recoverSigWith F recover suite public msg sigs t n = Outcome.error err)) ∧
    (∀ shares : List (Share G1),
      recoverSigLoop F suite public msg sigs [] = Outcome.ok shares →
        (∀ s ∈ sigs, verifyShare F suite public msg s = none) ∧
        shares = sigs.map (toPubShare suite)) := by
  constructor
  · intro hbad
    obtain ⟨pre, bad, post, err, h1, h2, h3⟩ :=
      exists_first_rejected (verifyShare F suite public msg) sigs hbad
    have hloop : recoverSigLoop F suite public msg sigs [] = Outcome.error err := by
      rw [h1, recoverSigLoop_append F suite public msg pre (bad :: post) []
        (fun s hs => ⟨hlen s (by rw [h1]; simp [hs]), h2 s hs⟩)]
      exact recoverSigLoop_reject F suite public msg bad post _ (hlen bad (by rw [h1]; simp))
        err h3
    have hwith : ∀ (recover : List (Share G1) → Nat → Nat → Except ShareError G1) (t n : Nat),
        recoverSigWith F recover suite public msg sigs t n = Outcome.error err := by
      intro recover t n
      simp only [recoverSigWith, hloop]
    exact ⟨pre, bad, post, err, h1, h2, h3, fun t n => hwith _ t n, hwith⟩
  · intro shares hok
    have := recoverSigLoop_ok_all_verified F suite public msg sigs [] shares hlen hok
    simpa using this

/-- C10, on the code: a share shorter than 2 bytes that the loop reaches (every share before it
is at least 2 bytes long and verifies) makes `recoverSig` panic in `s.Value()`; the error that
`Index` returned is never handed back. -/
theorem recoverSig_short_share_crashes (suite : Suite E G1 G2) (public : PubPoly G2)
    (msg : List Byte) (post : List (List Byte)) (t n : Nat) :
    recoverSig F suite public msg ([] :: post) t n = Outcome.crash ∧
    (∀ b : Byte, recoverSig F suite public msg ([b] :: post) t n = Outcome.crash) ∧
    (∀ (pre : List (List Byte)) (bad : List Byte),
      (∀ s ∈ pre, 2 ≤ s.length ∧ verifyShare F suite public msg s = none) → bad.length < 2 →
        recoverSig F suite public msg (pre ++ bad :: post) t n = Outcome.crash) := by
  have hgen : ∀ (pre : List (List Byte)) (bad : List Byte),
      (∀ s ∈ pre, 2 ≤ s.length ∧ verifyShare F suite public msg s = none) → bad.length < 2 →
        recoverSig F suite public msg (pre ++ bad :: post) t n = Outcome.crash := by
    intro pre bad hpre hbad
    simp only [recoverSig, recoverSigWith, recoverSigLoop_append F suite public msg pre _ [] hpre,
      recoverSigLoop_short F suite public msg bad post _ hbad]
  refine ⟨?_, ?_, hgen⟩
  · simpa using hgen [] [] (by simp) (by simp)
  · intro b
    simpa using hgen [] [b] (by simp) (by simp)

theorem selectShares_too_few {V : Type} (shares : List (Share V)) (t : Nat)
    (h : shares.length < t) : ∃ e, selectShares shares t = Except.error e := by
  unfold selectShares
  by_cases hd : (shares.map (fun s => s.I)).Nodup
  · exact ⟨ShareError.InsufficientShares, by rw [if_neg (not_not.mpr hd), if_pos h]⟩
  · exact ⟨ShareError.DuplicateIndex, by rw [if_pos hd]⟩

theorem RecoverCommit_too_few (shares : List (Share G1)) (t n : Nat)
    (h : shares.length < t) : ∃ e, RecoverCommit F shares t n = Except.error e := by
  obtain ⟨e, he⟩ := selectShares_too_few shares t h
  exact ⟨e, by simp only [RecoverCommit, he]⟩

/-- C4, on the code: with fewer shares than the threshold, all of them verified, the recovery
step fails, its error is discarded and `recoverSig` panics on the nil `commit`; it returns
neither an error nor a signature. -/
theorem recoverSig_too_few_shares_crashes (suite : Suite E G1 G2) (public : PubPoly G2)
    (msg : List Byte) (n : Nat) :
    (∀ t : Nat, 2 ≤ t → recoverSig F suite public msg [] t n = Outcome.crash) ∧
    (∀ (t : Nat) (sigs : List (List Byte)),
      (∀ s ∈ sigs, 2 ≤ s.length ∧ verifyShare F suite public msg s = none) →
      sigs.length < t → recoverSig F suite public msg sigs t n = Outcome.crash) := by
  have hgen : ∀ (t : Nat) (sigs : List (List Byte)),
      (∀ s ∈ sigs, 2 ≤ s.length ∧ verifyShare F suite public msg s = none) →
      sigs.length < t → recoverSig F suite public msg sigs t n = Outcome.crash := by
    intro t sigs hs hlt
    have hloop := recoverSigLoop_append F suite public msg sigs [] [] hs
    rw [List.append_nil] at hloop
    obtain ⟨e, he⟩ := RecoverCommit_too_few F (sigs.map (toPubShare suite)) t n
      (by simpa using hlt)
    simp only [recoverSig, recoverSigWith, hloop, recoverSigLoop, List.nil_append, he]
  refine ⟨?_, hgen⟩
  intro t ht
  exact hgen t [] (by simp) (by simp; omega)

end RecoverSigLoop

/-! ## BLS: recovery in the point domain against recovery of the secret -/

section TwoPaths

variable (F : Type) [Field F] {E G1 G2 : Type}
variable [AddCommGroup G1] [Module F G1] [AddCommGroup G2] [Module F G2]

theorem sum_lagrange_smul (c : Int → F) (H : G1) (l : List (Share F)) :
    (l.map (fun s => c s.I • (s.V • H))).sum = (l.map (fun s => s.V * c s.I)).sum • H := by
  induction l with
  | nil => simp
  | cons s l ih =>
    simp only [List.map_cons, List.sum_cons, add_smul, mul_smul]
    rw [ih, smul_comm]

theorem RecoverCommit_of_scaled (shares : List (Share F)) (H : G1) (t n : Nat) (secret : F)
    (hsec : RecoverSecret F shares t n = Except.ok secret) :
    RecoverCommit F (shares.map (fun s => (⟨s.I, s.V • H⟩ : Share G1))) t n =
      Except.ok (secret • H) := by
  have hidx : (shares.map (fun s => (⟨s.I, s.V • H⟩ : Share G1))).map (fun s => s.I) =
      shares.map (fun s => s.I) := by
    simp [List.map_map, Function.comp_def]
  simp only [RecoverSecret, selectShares] at hsec
  simp only [RecoverCommit, selectShares, hidx, List.length_map]
  by_cases hd : (shares.map (fun s => s.I)).Nodup
  · rw [if_neg (not_not.mpr hd)] at hsec ⊢
    by_cases hl : shares.length < t
    · rw [if_pos hl] at hsec
      simp at hsec
    · rw [if_neg hl] at hsec ⊢
      simp only [Except.ok.injEq] at hsec
      simp only [← List.map_take, List.map_map, Function.comp_def]
      rw [sum_lagrange_smul F (fun i => lagrangeCoeff F ((shares.take t).map (fun x => x.I)) i) H
        (shares.take t), hsec]
  · rw [if_pos hd] at hsec
    simp at hsec

theorem PubPoly_Eval_Commit (coeffs : List F) (B : G2) (i : Int) :
    (PubPoly.Eval F (PriPoly.Commit F coeffs B) i).V = (PriPoly.Eval F coeffs i).V • B := by
  simp only [PubPoly.Eval, PriPoly.Commit, PriPoly.Eval]
  induction coeffs with
  | nil => simp
  | cons a coeffs ih =>
    simp only [List.map_cons, List.foldr_cons, ih, add_smul, mul_smul]
    rw [smul_comm]

theorem foldr_zipWith_add (x : F) (l1 l2 : List G2) (h : l1.length = l2.length) :
    (List.zipWith (fun a b => a + b) l1 l2).foldr (fun cj v => x • v + cj) 0 =
      l1.foldr (fun cj v => x • v + cj) 0 + l2.foldr (fun cj v => x • v + cj) 0 := by
  induction l1 generalizing l2 with
  | nil =>
    match l2, h with
    | [], _ => simp
  | cons a l1 ih =>
    match l2, h with
    | b :: l2, h =>
      have hl : l1.length = l2.length := by simpa using h
      simp only [List.zipWith_cons_cons, List.foldr_cons, ih l2 hl, smul_add]
      abel

theorem PubPoly_Add_eq (p q : PubPoly G2) (h : p.commits.length = q.commits.length) :
    ∃ r, PubPoly.Add p q = some r ∧ r.commits.length = p.commits.length ∧
      ∀ i : Int, (PubPoly.Eval F r i).V = (PubPoly.Eval F p i).V + (PubPoly.Eval F q i).V := by
  refine ⟨⟨p.b, List.zipWith (fun a b => a + b) p.commits q.commits⟩, ?_, ?_, ?_⟩
  · simp only [PubPoly.Add, if_pos h]
  · simp [h]
  · intro i
    exact foldr_zipWith_add F (xCoord F i) p.commits q.commits h

theorem foldlM_Add_Commit (B : G2) (t : Nat) (rest : List (List F))
    (hrest : ∀ p ∈ rest, p.length = t) (acc : PubPoly G2) (hacc : acc.commits.length = t) :
    ∃ r, (rest.map (fun p => PriPoly.Commit F p B)).foldlM (fun a q => PubPoly.Add a q) acc
        = some r ∧
      r.commits.length = t ∧
      ∀ i : Int, (PubPoly.Eval F r i).V =
        (PubPoly.Eval F acc i).V + (rest.map (fun p => (PriPoly.Eval F p i).V)).sum • B := by
  induction rest generalizing acc with
  | nil => exact ⟨acc, rfl, hacc, by simp⟩
  | cons p rest ih =>
    have hp : p.length = t := hrest p (List.mem_cons_self _ _)
    have hlen : acc.commits.length = (PriPoly.Commit F p B).commits.length := by
      simp [PriPoly.Commit, hacc, hp]
    obtain ⟨r1, h1, h2, h3⟩ := PubPoly_Add_eq F acc (PriPoly.Commit F p B) hlen
    obtain ⟨r, h4, h5, h6⟩ := ih (fun q hq => hrest q (List.mem_cons_of_mem _ hq)) r1
      (by rw [h2, hacc])
    refine ⟨r, ?_, h5, ?_⟩
    · simp only [List.map_cons, List.foldlM_cons, h1, Option.bind_eq_bind, Option.some_bind]
      exact h4
    · intro i
      rw [h6 i, h3 i, PubPoly_Eval_Commit]
      simp only [List.map_cons, List.sum_cons, add_smul]
      abel

theorem pubPolyAll_eq (B : G2) (t : Nat) (polys : List (List F)) (hne : polys ≠ [])
    (hdeg : ∀ p ∈ polys, p.length = t) :
    ∃ r, pubPolyAll (polys.map (fun p => PriPoly.Commit F p B)) = some r ∧
      ∀ i : Int, (PubPoly.Eval F r i).V =
        (polys.map (fun p => (PriPoly.Eval F p i).V)).sum • B := by
  match polys, hne with
  | p0 :: rest, _ =>
    obtain ⟨r, h1, _, h3⟩ := foldlM_Add_Commit F B t rest
      (fun q hq => hdeg q (List.mem_cons_of_mem _ hq)) (PriPoly.Commit F p0 B)
      (by simp [PriPoly.Commit, hdeg p0 (List.mem_cons_self _ _)])
    refine ⟨r, ?_, ?_⟩
    · simp only [pubPolyAll, List.map_cons]
      exact h1
    · intro i
      rw [h3 i, PubPoly_Eval_Commit]
      simp only [List.map_cons, List.sum_cons, add_smul]

theorem Shares_getElem? (coeffs : List F) (n i : Nat) (h : i < n) :
    (PriPoly.Shares F coeffs n)[i]? = some (PriPoly.Eval F coeffs (i : Int)) := by
  simp [PriPoly.Shares, List.getElem?_map, List.getElem?_range h]

theorem dkgAcc_range' (polys : List (List F)) (n i : Nat) (hi : i < n) (len s : Nat)
    (h : s + len ≤ polys.length) (acc : F) :
    dkgAcc F (polys.map (fun p => PriPoly.Shares F p n)) i (List.range' s len) acc =
      some (acc + (((polys.drop s).take len).map
        (fun p => (PriPoly.Eval F p (i : Int)).V)).sum) := by
  induction len generalizing s acc with
  | zero => simp [dkgAcc]
  | succ len ih =>
    have hs : s < polys.length := by omega
    have hrow : (polys.map (fun p => PriPoly.Shares F p n))[s]? =
        some (PriPoly.Shares F polys[s] n) := by
      rw [List.getElem?_map, List.getElem?_eq_getElem hs]
      rfl
    have hdrop : polys.drop s = polys[s] :: polys.drop (s + 1) := List.drop_eq_getElem_cons hs
    rw [List.range'_succ]
    simp only [dkgAcc, hrow, Shares_getElem? F polys[s] n i hi]
    rw [ih (s + 1) (by omega), hdrop]
    simp only [List.take_succ_cons, List.map_cons, List.sum_cons, add_assoc]

theorem dkgAcc_range (polys : List (List F)) (n i : Nat) (hi : i < n) (hn : polys.length = n) :
    dkgAcc F (polys.map (fun p => PriPoly.Shares F p n)) i (List.range n) 0 =
      some (polys.map (fun p => (PriPoly.Eval F p (i : Int)).V)).sum := by
  rw [List.range_eq_range', dkgAcc_range' F polys n i hi n 0 (by omega)]
  simp [← hn]

theorem dkgSharesFrom_eq (polys : List (List F)) (n : Nat) (hn : polys.length = n)
    (idxs : List Nat) (hidx : ∀ i ∈ idxs, i < n) :
    dkgSharesFrom F (polys.map (fun p => PriPoly.Shares F p n)) n idxs =
      some (idxs.map (fun i : Nat =>
        (⟨(i : Int), (polys.map (fun p => (PriPoly.Eval F p (i : Int)).V)).sum⟩ : Share F))) := by
  induction idxs with
  | nil => rfl
  | cons i idxs ih =>
    simp only [dkgSharesFrom, dkgAcc_range F polys n i (hidx i (List.mem_cons_self _ _)) hn,
      ih (fun j hj => hidx j (List.mem_cons_of_mem _ hj)), List.map_cons]

theorem dkgShares_eq (polys : List (List F)) (n : Nat) (hn : polys.length = n) :
    dkgShares F (polys.map (fun p => PriPoly.Shares F p n)) n =
      some ((List.range n).map (fun i : Nat =>
        (⟨(i : Int), (polys.map (fun p => (PriPoly.Eval F p (i : Int)).V)).sum⟩ : Share F))) :=
  dkgSharesFrom_eq F polys n hn (List.range n) (fun _ hi => List.mem_range.mp hi)

theorem RecoverSecret_ok (shares : List (Share F)) (n : Nat)
    (hd : (shares.map (fun s => s.I)).Nodup) (hl : shares.length = n) :
    RecoverSecret F shares n n = Except.ok
      (shares.map (fun s => s.V * lagrangeCoeff F (shares.map (fun x => x.I)) s.I)).sum := by
  simp only [RecoverSecret, selectShares]
  rw [if_neg (not_not.mpr hd), if_neg (by omega)]
  simp only [← hl, List.take_length]

theorem signed_share_accepted (suite : Suite E G1 G2)
    (hVerify : ∀ (x : F) (msg : List Byte),
      suite.Verify (x • suite.Base) msg (Sign F suite x msg) = none)
    (hum : ∀ P : G1, suite.unmarshalG1 (suite.marshalG1 P) = some P)
    (public : PubPoly G2) (msg : List Byte) (x : Share F) (h0 : 0 ≤ x.I) (h1 : x.I ≤ 65535)
    (hpk : (PubPoly.Eval F public x.I).V = x.V • suite.Base) :
    2 ≤ (encodeShare x.I (Sign F suite x.V msg)).length ∧
    verifyShare F suite public msg (encodeShare x.I (Sign F suite x.V msg)) = none ∧
    toPubShare suite (encodeShare x.I (Sign F suite x.V msg)) =
      ⟨x.I, x.V • suite.hashToPoint msg⟩ := by
  refine ⟨length_encodeShare _ _, ?_, ?_⟩
  · simp only [verifyShare, Index_encodeShare _ _ h0 h1, drop_two_encodeShare, hpk]
    exact hVerify x.V msg
  · simp only [toPubShare, Index_encodeShare _ _ h0 h1, drop_two_encodeShare, Sign, hum,
      Option.getD_some]

theorem recoverSig_not_ok_of_repeated_index (suite : Suite E G1 G2) (public : PubPoly G2)
    (msg : List Byte) (dkg : List (Share F)) (t n : Nat)
    (hdup : ¬ (dkg.map (fun x => ((uint16 x.I : Nat) : Int))).Nodup) (sig : List Byte) :
    recoverSig F suite public msg (signShares F suite dkg msg) t n ≠ Outcome.ok sig := by
  intro h
  have hlen : ∀ s ∈ signShares F suite dkg msg, 2 ≤ s.length := by
    intro s hs
    obtain ⟨x, _, rfl⟩ := List.mem_map.mp hs
    exact length_encodeShare _ _
  simp only [recoverSig, recoverSigWith] at h
  cases hl : recoverSigLoop F suite public msg (signShares F suite dkg msg) [] with
  | error err => simp [hl] at h
  | crash => simp [hl] at h
  | ok shares =>
    obtain ⟨_, hshares⟩ := recoverSigLoop_ok_all_verified F suite public msg
      (signShares F suite dkg msg) [] shares hlen hl
    have hidx : shares.map (fun s => s.I) = dkg.map (fun x => ((uint16 x.I : Nat) : Int)) := by
      rw [hshares, List.nil_append]
      simp only [signShares, List.map_map]
      apply List.map_congr_left
      intro x _
      simp only [Function.comp_apply, toPubShare, Index_encodeShare_uint16]
    have hsel : RecoverCommit F shares t n = Except.error ShareError.DuplicateIndex := by
      simp only [RecoverCommit, selectShares, hidx, if_pos hdup]
    simp only [hl, hsel] at h
    exact Outcome.noConfusion h

/-- C2: for `n = t` contributors with polynomials of `n` coefficients, a BLS primitive that
accepts every honestly signed share and a lossless point encoding, `main` builds the aggregated
private key shares (share `i` is the sum over the contributors `j` of `priShares[j][i].V`) and the
combined public polynomial without panicking, `RecoverSecret` interpolates a secret from those
shares, and the signature `recoverSig` recovers in the point domain from the signature shares is
byte for byte the signature of the message under that secret. -/
theorem bls_two_signing_paths_agree (suite : Suite E G1 G2)
    (hVerify : ∀ (x : F) (msg : List Byte),
      suite.Verify (x • suite.Base) msg (Sign F suite x msg) = none)
    (hum : ∀ P : G1, suite.unmarshalG1 (suite.marshalG1 P) = some P)
    (polys : List (List F)) (n : Nat) (hn : polys.length = n) (hpos : 0 < n)
    (hn16 : n ≤ 65536) (hdeg : ∀ p ∈ polys, p.length = n) (msg : List Byte) :
    ∃ (dkg : List (Share F)) (pubAll : PubPoly G2) (secret : F),
      dkgShares F (polys.map (fun p => PriPoly.Shares F p n)) n = some dkg ∧
      dkg = (List.range n).map (fun i : Nat =>
        (⟨(i : Int), (polys.map (fun p => (PriPoly.Eval F p (i : Int)).V)).sum⟩ : Share F)) ∧
      pubPolyAll (polys.map (fun p => PriPoly.Commit F p suite.Base)) = some pubAll ∧
      RecoverSecret F dkg n n = Except.ok secret ∧
      recoverSig F suite pubAll msg (signShares F suite dkg msg) n n =
        Outcome.ok (Sign F suite secret msg) := by
  have hne : polys ≠ [] := by
    intro h
    rw [h] at hn
    simp at hn
    omega
  obtain ⟨pubAll, hpub, hEval⟩ := pubPolyAll_eq F suite.Base n polys hne hdeg
  obtain ⟨dkg, hdkg⟩ : ∃ dkg, dkg = (List.range n).map (fun i : Nat =>
      (⟨(i : Int), (polys.map (fun p => (PriPoly.Eval F p (i : Int)).V)).sum⟩ : Share F)) :=
    ⟨_, rfl⟩
  have hidx : dkg.map (fun s => s.I) = (List.range n).map (fun i : Nat => (i : Int)) := by
    rw [hdkg, List.map_map]
    rfl
  have hnodup : (dkg.map (fun s => s.I)).Nodup := by
    rw [hidx]
    exact (List.nodup_range n).map (fun a b h => by exact_mod_cast h)
  have hlen : dkg.length = n := by rw [hdkg]; simp
  have hsec := RecoverSecret_ok F dkg n hnodup hlen
  have hshare : ∀ x ∈ dkg, 0 ≤ x.I ∧ x.I ≤ 65535 ∧
      (PubPoly.Eval F pubAll x.I).V = x.V • suite.Base := by
    intro x hx
    rw [hdkg] at hx
    obtain ⟨i, hi, rfl⟩ := List.mem_map.mp hx
    have hi2 : i < n := List.mem_range.mp hi
    refine ⟨by simp, by simp only; omega, hEval _⟩
  have hpre : ∀ s ∈ signShares F suite dkg msg,
      2 ≤ s.length ∧ verifyShare F suite pubAll msg s = none := by
    intro s hs
    obtain ⟨x, hx, rfl⟩ := List.mem_map.mp hs
    obtain ⟨h0, h1, hpk⟩ := hshare x hx
    have := signed_share_accepted F suite hVerify hum pubAll msg x h0 h1 hpk
    exact ⟨this.1, this.2.1⟩
  have hloop := recoverSigLoop_append F suite pubAll msg (signShares F suite dkg msg) [] [] hpre
  have hmap : (signShares F suite dkg msg).map (toPubShare suite) =
      dkg.map (fun x => (⟨x.I, x.V • suite.hashToPoint msg⟩ : Share G1)) := by
    simp only [signShares, List.map_map]
    apply List.map_congr_left
    intro x hx
    obtain ⟨h0, h1, hpk⟩ := hshare x hx
    exact (signed_share_accepted F suite hVerify hum pubAll msg x h0 h1 hpk).2.2
  rw [List.append_nil, List.nil_append, hmap] at hloop
  refine ⟨dkg, pubAll, _, ?_, hdkg, hpub, hsec, ?_⟩
  · rw [hdkg]
    exact dkgShares_eq F polys n hn
  · simp only [recoverSig, recoverSigWith, hloop, recoverSigLoop,
      RecoverCommit_of_scaled F dkg (suite.hashToPoint msg) n n _ hsec, Sign]

end TwoPaths

/-! ## The theorems at the small instance -/

section Instances

theorem exampleCurve_X_range (p : ZMod 7) :
    0 ≤ exampleCurve.X p ∧ exampleCurve.X p < 2 ^ 256 := by
  have h := ZMod.val_lt p
  have h7 : (p.val : Int) < 7 := by exact_mod_cast h
  exact ⟨Int.natCast_nonneg _, lt_trans h7 (by norm_num)⟩

theorem exampleSuite_unmarshal_marshal (P : ZMod 7) :
    exampleSuite.unmarshalG1 (exampleSuite.marshalG1 P) = some P := by
  have h := ZMod.val_lt P
  have h256 : P.val % 256 = P.val := Nat.mod_eq_of_lt (by omega)
  simp only [exampleSuite, h256, if_pos h, ZMod.natCast_zmod_val]

theorem exampleSuite_verify_signed (x : ZMod 7) (msg : List Byte) :
    exampleSuite.Verify (x • exampleSuite.Base) msg (Sign (ZMod 7) exampleSuite x msg) = none := by
  have h := ZMod.val_lt (x * ((SetBytes msg : Nat) : ZMod 7))
  have h256 : (x * ((SetBytes msg : Nat) : ZMod 7)).val % 256 =
      (x * ((SetBytes msg : Nat) : ZMod 7)).val := Nat.mod_eq_of_lt (by omega)
  simp only [exampleSuite, Sign, smul_eq_mul, mul_one]
  have hlt : (x * ((SetBytes msg : Nat) : ZMod 7)).val % 256 < 7 := by omega
  have hc : (((x * ((SetBytes msg : Nat) : ZMod 7)).val % 256 : Nat) : ZMod 7) =
      ((SetBytes msg : Nat) : ZMod 7) * x := by
    rw [h256, ZMod.natCast_zmod_val, mul_comm]
  rw [if_pos hlt, if_pos hc]

theorem curve43_X_range (p : ZMod 31) : 0 ≤ curve43.X p ∧ curve43.X p < curve43.P := by
  revert p
  decide

theorem curve43_neg_X (p : ZMod 31) : curve43.X (-p) = curve43.X p := by
  revert p
  decide

theorem curve43_infinity (p : ZMod 31) : (curve43.X p = 0 ∧ curve43.Y p = 0) ↔ p = 0 := by
  revert p
  decide

theorem curve43_residue_neg (p : ZMod 31) (h0 : p ≠ 0)
    (hj : curve43.Jacobi (curve43.Y p) curve43.P ≠ 1) :
    curve43.Jacobi (curve43.Y (-p)) curve43.P = 1 := by
  revert p
  decide

theorem parties43_wf (parties : List (SchnorrParty (ZMod 31))) (key1 key2 : List Byte)
    (h : parties = [NewSchnorrParty curve43 (PrvKeyFromBytes curve43 key1),
      NewSchnorrParty curve43 (PrvKeyFromBytes curve43 key2)]) :
    ∀ p ∈ parties, p.N = curve43.N ∧ p.pub = p.prv.D • curve43.G := by
  intro p hp
  rw [h] at hp
  simp only [List.mem_cons, List.mem_singleton, List.not_mem_nil, or_false] at hp
  rcases hp with rfl | rfl <;> exact NewSchnorrParty_wf _ _

/-- Witness of C1: the run of two parties with the keys 3 and 5 on the curve `y² = x³ + 7` over
the field of 43 elements; their nonces 14 and 16 sum to `30•G`, a finite point, and the
signature passes `schnorr.Verify`. -/
theorem schnorr_aggregate_verifies_witness :
    ∃ (ses : Session (ZMod 31)) (rX : List Byte),
      runSession curve43 parties43 [1, 2, 3, 4] = some ses ∧
      IntToByte (curve43.X ses.shareScalarR) = some rX ∧
      ses.s • curve43.G =
        (if curve43.Jacobi (curve43.Y ses.shareScalarR) curve43.P = 1
          then ses.shareScalarR else -ses.shareScalarR) +
        curve43.GetE [1, 2, 3, 4] (curve43.X ses.sharePub) (curve43.Y ses.sharePub) rX •
          ses.sharePub ∧
      ses.shareScalarR = 30 ∧ ses.pass = true := by
  obtain ⟨ses, rX, h1, _, h3, h4, _, _, _, h8, _, h10⟩ :=
    schnorr_aggregate_verifies curve43 (by decide) (by decide)
      (by show (31 : Int) ≤ 2 ^ 256; norm_num) (by show (43 : Int) ≤ 2 ^ 256; norm_num)
      curve43_X_range curve43_neg_X curve43_infinity curve43_residue_neg parties43
      (by simp [parties43]) (parties43_wf parties43 [3] [5] rfl)
      [1, 2, 3, 4] (fun p => (nonceOf curve43 [1, 2, 3, 4] p).getD 0)
      (by
        intro p hp
        simp only [parties43, List.mem_cons, List.mem_singleton, List.not_mem_nil,
          or_false] at hp
        rcases hp with rfl | rfl <;> rfl)
  have hR : ses.shareScalarR = 30 := by
    rw [h3]
    decide
  exact ⟨ses, rX, h1, h4, h8, hR, h10.mpr (by rw [hR]; decide)⟩

/-- Counterexample to C1 as stated: two parties with the keys 3 and 6 on the curve
`y² = x³ + 7` over the field of 43 elements, whose nonces 14 and 17 sum to the group order 31.
The run succeeds, the aggregate nonce is the point at infinity, the signature is `(0, 11)` and
`schnorr.Verify` rejects it. -/
theorem schnorr_cancelling_nonces_rejected :
    ∃ ses : Session (ZMod 31),
      runSession curve43 cancellingParties43 [1, 2, 3, 4] = some ses ∧
      ses.shareScalarR = 0 ∧ ses.r = 0 ∧ ses.s = 11 ∧ ses.pass = false := by
  obtain ⟨ses, hrun, hP, hR, hr, hs, _, hpass⟩ :=
    runSession_eq curve43 (by decide) (by decide)
      (by show (31 : Int) ≤ 2 ^ 256; norm_num) (by show (43 : Int) ≤ 2 ^ 256; norm_num)
      curve43_X_range curve43_neg_X curve43_infinity curve43_residue_neg cancellingParties43
      (by simp [cancellingParties43]) (parties43_wf cancellingParties43 [3] [6] rfl)
      [1, 2, 3, 4] (fun p => (nonceOf curve43 [1, 2, 3, 4] p).getD 0)
      (by
        intro p hp
        simp only [cancellingParties43, List.mem_cons, List.mem_singleton, List.not_mem_nil,
          or_false] at hp
        rcases hp with rfl | rfl <;> rfl)
  have hR0 : ses.shareScalarR = 0 := by
    rw [hR]
    decide
  have hP9 : ses.sharePub = 9 := by
    rw [hP]
    decide
  have hr0 : ses.r = 0 := by
    rw [hr, hR0]
    decide
  have hs11 : ses.s = 11 := by
    rw [hs, hR0, hP9]
    decide
  have hpassf : ses.pass = false := by
    cases hb : ses.pass with
    | false => rfl
    | true => exact absurd hR0 (hpass.mp hb)
  exact ⟨ses, hrun, hR0, hr0, hs11, hpassf⟩

/-- Witness of C5: the party with key 3 and nonce 2 signs against `R = 1` and `P = 3`. -/
theorem generateSignature_encodes_share_witness :
    ∃ sig : List Byte,
      generateSignature exampleCurve exampleParty 1 3 = some ({ exampleParty with sig := sig }, sig) ∧
      sig.length = 32 := by
  obtain ⟨_, sig, _, _, _, _, _, _, hlen, _, hgen, _⟩ :=
    generateSignature_encodes_share exampleCurve exampleParty 2 rfl (by decide)
      (by show (7 : Int) ≤ 2 ^ 256; norm_num) 1 3 (exampleCurve_X_range 1).1
      (exampleCurve_X_range 1).2
  exact ⟨sig, hgen, hlen⟩

/-- Witness of C6: the partial signatures 3 and 5 modulo 7 aggregate to 1. -/
theorem phase5_sum_and_final_signature_witness :
    ∃ (aggs : Int) (sig : List Byte),
      aggregateSig exampleSigned 0 = some aggs ∧ aggs = 1 ∧ sig.length = 64 ∧
      sigFinal exampleCurve 3 aggs = some sig ∧ parseSig sig = (exampleCurve.X 3, aggs) := by
  obtain ⟨aggs, sig, h1, h2, _, _, h5, h6, _, h8⟩ :=
    phase5_sum_and_final_signature exampleCurve 7 (by decide) (by norm_num) exampleSigned
      (by
        intro p hp
        simp only [exampleSigned, List.mem_cons, List.mem_singleton, List.not_mem_nil,
          or_false] at hp
        rcases hp with rfl | rfl <;> rfl)
      [3, 5]
      (by
        intro s hs
        simp only [List.mem_cons, List.mem_singleton, List.not_mem_nil, or_false] at hs
        rcases hs with rfl | rfl <;> norm_num)
      rfl 3 (exampleCurve_X_range 3).1 (exampleCurve_X_range 3).2
  exact ⟨aggs, sig, h1, by rw [h2]; decide, h6, h5, h8⟩

/-- Witness of C7: the mask `[false, true]` over the two example parties. -/
theorem pickParties_and_aggregate_key_witness :
    pickParties [false, true] exampleParties =
      some (selectedParties [false, true] exampleParties) ∧
    selectedParties [false, true] exampleParties ≠ [] :=
  have h := pickParties_and_aggregate_key [false, true] exampleParties (by decide) (by decide)
  ⟨h.1, h.2.1⟩

/-- Witness of C3: one share of 4 bytes whose 2-byte value is no valid signature. -/
theorem recoverSig_aborts_on_first_rejected_share_witness :
    recoverSig (ZMod 7) exampleSuite examplePublic [1] [[0, 0, 9, 9]] 1 1 = Outcome.error () := by
  obtain ⟨_, _, _, _, _, _, _, h, _⟩ :=
    (recoverSig_aborts_on_first_rejected_share (ZMod 7) exampleSuite examplePublic [1]
      [[0, 0, 9, 9]] (by simp)).1
      ⟨[0, 0, 9, 9], by simp, by simp [verifyShare, exampleSuite]⟩
  exact h 1 1

/-- Counterexample to C2 as stated: `n = t = 65537` contributors, each with the zero polynomial
of 65537 coefficients. `main` builds the 65537 aggregated shares, but the share of index 65536 is
encoded with the 16-bit index 0, the index of the first share, and `recoverSig` returns no
signature, whatever the public polynomial. -/
theorem bls_paths_disagree_past_uint16 :
    ∃ dkg : List (Share (ZMod 7)),
      dkgShares (ZMod 7) ((List.replicate 65537 (List.replicate 65537 (0 : ZMod 7))).map
        (fun p => PriPoly.Shares (ZMod 7) p 65537)) 65537 = some dkg ∧
      SigShare.Index (encodeShare 65536 (Sign (ZMod 7) exampleSuite 0 [1])) = (0, none) ∧
      ∀ (pubAll : PubPoly (ZMod 7)) (sig : List Byte),
        recoverSig (ZMod 7) exampleSuite pubAll [1]
          (signShares (ZMod 7) exampleSuite dkg [1]) 65537 65537 ≠ Outcome.ok sig := by
  refine ⟨_, dkgShares_eq (ZMod 7) _ 65537 (List.length_replicate _ _), ?_, ?_⟩
  · rw [Index_encodeShare_uint16]
    rfl
  · intro pubAll sig
    apply recoverSig_not_ok_of_repeated_index
    intro hnodup
    rw [List.map_map] at hnodup
    have hinj := List.inj_on_of_nodup_map hnodup
    have h0 : (0 : Nat) ∈ List.range 65537 := List.mem_range.mpr (by norm_num)
    have h1 : (65536 : Nat) ∈ List.range 65537 := List.mem_range.mpr (by norm_num)
    have := hinj h0 h1 (by
      show ((uint16 ((0 : Nat) : Int) : Nat) : Int) = ((uint16 ((65536 : Nat) : Int) : Nat) : Int)
      decide)
    exact absurd this (by norm_num)

/-- Witness of C2: two contributors with the polynomials `1 + 2x` and `3 + 4x` over `ZMod 7`. -/
theorem bls_two_signing_paths_agree_witness :
    ∃ (dkg : List (Share (ZMod 7))) (pubAll : PubPoly (ZMod 7)) (secret : ZMod 7),
      dkgShares (ZMod 7) ([[1, 2], [3, 4]].map (fun p => PriPoly.Shares (ZMod 7) p 2)) 2 =
        some dkg ∧
      pubPolyAll ([[1, 2], [3, 4]].map (fun p => PriPoly.Commit (ZMod 7) p exampleSuite.Base)) =
        some pubAll ∧
      RecoverSecret (ZMod 7) dkg 2 2 = Except.ok secret ∧
      recoverSig (ZMod 7) exampleSuite pubAll [1] (signShares (ZMod 7) exampleSuite dkg [1]) 2 2 =
        Outcome.ok (Sign (ZMod 7) exampleSuite secret [1]) := by
  obtain ⟨dkg, pubAll, secret, h1, _, h3, h4, h5⟩ :=
    bls_two_signing_paths_agree (ZMod 7) exampleSuite exampleSuite_verify_signed
      exampleSuite_unmarshal_marshal [[1, 2], [3, 4]] 2 rfl (by decide) (by decide)
      (by
        intro p hp
        simp only [List.mem_cons, List.mem_singleton, List.not_mem_nil, or_false] at hp
        rcases hp with rfl | rfl <;> rfl)
      [1]
  exact ⟨dkg, pubAll, secret, h1, h3, h4, h5⟩

end Instances

end ThresholdSig
